import Mathlib

/-!
Verification of the starlark-rust evaluation-engine specification.

The repository's `src/starlark/src/lib.rs` is the crate root: it holds the
public doc examples (which pin down observable behaviour, such as the exact
type-annotation error message and the load/freeze workflow) and the module
declarations, while the bodies of `eval`, `values`, `environment` etc. are not
part of the provided sources.  Following the spec (sections 3, 4 and 7) we
model the value model, the freeze pass, modules, the argument-binding protocol
and a tree-walking fueled evaluator, and prove the claimed properties about
that model.
-/

namespace Starlark

/-- Modelled from the spec: parameter kinds of the parameter specification,
`kind ∈ {positional-or-keyword, *args, **kwargs}` (spec section 3, Function). -/
inductive ParamKind where
  | normal
  | args
  | kwargs

/-- Observable evaluator events, used to state the caching and
definition-time-defaults properties: a Loader resolution call, and the
evaluation of one parameter's default expression. -/
inductive Event where
  | resolve (m : String)
  | defaultEval (fname pname : String)

/-- Modelled from the spec: the error taxonomy of section 7 (NameError,
TypeError, ValueError, LoadError, StackOverflow). -/
inductive EvalErr where
  | nameError (n : String)
  | typeError (msg : String)
  | valueError (msg : String)
  | loadError (msg : String)
  | stackOverflow

/-- Modelled from the spec: expressions of the AST produced by the external
parser (spec section 4.4): literals, names, calls with positional and keyword
arguments, tuple and list displays. -/
inductive Expr where
  | enone
  | ebool (b : Bool)
  | eint (n : Int)
  | estr (s : String)
  | ename (x : String)
  | ecall (fn : Expr) (pos : List Expr) (kw : List (String × Expr))
  | etuple (xs : List Expr)
  | elist (xs : List Expr)

/-- Modelled from the spec: the syntactic parameter specification of a `def`
statement: name, kind, optional default expression, optional type
annotation (spec section 3, Function). -/
inductive PSpec where
  | mk (name : String) (kind : ParamKind) (default : Option Expr) (ann : Option String)

/-- Modelled from the spec: statements executed by the evaluator
(spec section 4.4): bare expression statements, assignment, function
definition, `load`, `return`, `pass`. -/
inductive Stmt where
  | sexpr (e : Expr)
  | sassign (x : String) (e : Expr)
  | sdefn (name : String) (params : List PSpec) (body : List Stmt)
  | sload (m : String) (names : List String)
  | sreturn (e : Option Expr)
  | spass

mutual
/-- Modelled from the spec: the closed set of runtime value kinds
(spec section 3): `None`, `Bool`, `Int`, `String`, `Tuple`, `List` and `Dict`
(each carrying a frozen flag: mutable during construction, immutable after
freeze), user-defined `Function` (with pre-evaluated defaults) and host
`NativeFunction` (referenced by registry name). -/
inductive Value where
  | vnone
  | vbool (b : Bool)
  | vint (n : Int)
  | vstr (s : String)
  | vtuple (xs : List Value)
  | vlist (frozen : Bool) (xs : List Value)
  | vdict (frozen : Bool) (entries : List (Value × Value))
  | vfunc (name : String) (params : List Param) (body : List Stmt)
  | vnative (name : String)
/-- Modelled from the spec: a runtime parameter of a Function value; its
default is a pre-evaluated Value, evaluated once at definition time
(spec section 3, invariant (d)). -/
inductive Param where
  | mk (name : String) (kind : ParamKind) (default : Option Value) (ann : Option String)
end

def Param.name : Param → String
  | .mk n _ _ _ => n

def Param.kind : Param → ParamKind
  | .mk _ k _ _ => k

def Param.default : Param → Option Value
  | .mk _ _ d _ => d

def Param.ann : Param → Option String
  | .mk _ _ _ a => a

def ParamKind.isNormal : ParamKind → Bool
  | .normal => true
  | _ => false

def ParamKind.isArgs : ParamKind → Bool
  | .args => true
  | _ => false

def ParamKind.isKwargs : ParamKind → Bool
  | .kwargs => true
  | _ => false

/-- Modelled from the spec: the runtime type tag of a value, as used by
operator type-checking and annotation checking (spec sections 4.1 and 4.4
step 6; the tag names `string`/`int` appear in the doc example of
`src/starlark/src/lib.rs`). -/
def Value.typeName : Value → String
  | .vnone => "NoneType"
  | .vbool _ => "bool"
  | .vint _ => "int"
  | .vstr _ => "string"
  | .vtuple _ => "tuple"
  | .vlist _ _ => "list"
  | .vdict _ _ => "dict"
  | .vfunc _ _ _ => "function"
  | .vnative _ => "function"

/-- Rendering of a value inside error messages; the doc example of
`src/starlark/src/lib.rs` shows string values rendered bare
(`Value ,test, of type ,string,`). -/
def Value.display : Value → String
  | .vnone => "None"
  | .vbool true => "True"
  | .vbool false => "False"
  | .vint n => toString n
  | .vstr s => s
  | .vtuple _ => "tuple"
  | .vlist _ _ => "list"
  | .vdict _ _ => "dict"
  | .vfunc n _ _ => n
  | .vnative n => n

mutual
/-- Modelled from the spec: the hashable value kinds — only `None`, `Bool`,
`Int`, `String` and `Tuple`-of-hashable are hashable; unfrozen `List`/`Dict`
and functions are never hashable (spec section 3). -/
def isHashable : Value → Bool
  | .vnone => true
  | .vbool _ => true
  | .vint _ => true
  | .vstr _ => true
  | .vtuple xs => isHashableL xs
  | _ => false
def isHashableL : List Value → Bool
  | [] => true
  | v :: vs => isHashable v && isHashableL vs
end

mutual
/-- Modelled from the spec: structural equality on hashable values, used for
Dict key comparison (spec section 3: equality and hashing are structural).
Unhashable kinds are never valid Dict keys, so they compare unequal. -/
def valEq : Value → Value → Bool
  | .vnone, .vnone => true
  | .vbool a, .vbool b => a == b
  | .vint a, .vint b => a == b
  | .vstr a, .vstr b => a == b
  | .vtuple xs, .vtuple ys => valEqL xs ys
  | _, _ => false
def valEqL : List Value → List Value → Bool
  | [], [] => true
  | x :: xs, y :: ys => valEq x y && valEqL xs ys
  | _, _ => false
end

/-- Association-list lookup by string key, used for module globals, locals,
caches and registries (all insertion-ordered). -/
def lookupStr {α : Type} : List (String × α) → String → Option α
  | [], _ => none
  | (k, v) :: rest, x => if k = x then some v else lookupStr rest x

/-- Insertion-ordered update-or-append on a string-keyed association list:
an existing binding is overwritten in place, a new one is appended. -/
def setStr {α : Type} : List (String × α) → String → α → List (String × α)
  | [], x, v => [(x, v)]
  | (k, w) :: rest, x, v => if k = x then (k, v) :: rest else (k, w) :: setStr rest x v

/-- Dict entry lookup in insertion order, comparing keys structurally. -/
def dictLookup : List (Value × Value) → Value → Option Value
  | [], _ => none
  | (k, v) :: rest, x => if valEq k x then some v else dictLookup rest x

/-- Modelled from the spec: Dict assignment `d[k] = v` on the entry list — an
existing key keeps its position (first-insertion order) and only its value is
replaced; a new key is appended (spec section 3, invariant (c)). -/
def dictSet : List (Value × Value) → Value → Value → List (Value × Value)
  | [], x, v => [(x, v)]
  | (k, w) :: rest, x, v =>
    if valEq k x then (k, v) :: rest else (k, w) :: dictSet rest x v

/-- Whether a key is already present in a Dict's entry list. -/
def dictHasKey : List (Value × Value) → Value → Bool
  | [], _ => false
  | (k, _) :: rest, x => valEq k x || dictHasKey rest x

/-- Modelled from the spec: the indexed-read capability `d[k]` of Dict values
(spec section 4.1); a missing key fails with ValueError, a non-indexable
target with TypeError. -/
def Value.getIndex : Value → Value → Except EvalErr Value
  | .vdict _ es, k =>
    match dictLookup es k with
    | some v => .ok v
    | none => .error (.valueError ("key not found: " ++ k.display))
  | v, _ => .error (.typeError ("not indexable: " ++ v.typeName))

/-- Modelled from the spec: the indexed-write capability `d[k] = v` of Dict
values: rejected on a frozen Dict, rejected for an unhashable key with a
ValueError, otherwise updates the entry list via `dictSet`
(spec sections 3 and 4.1). -/
def Value.setIndex : Value → Value → Value → Except EvalErr Value
  | .vdict frozen es, k, v =>
    if frozen then .error (.valueError "cannot mutate a frozen value")
    else if isHashable k then .ok (.vdict false (dictSet es k v))
    else .error (.valueError ("unhashable key of type " ++ k.typeName))
  | v, _, _ => .error (.typeError ("not assignable by index: " ++ v.typeName))

mutual
/-- Modelled from the spec: the freeze pass on one value — a depth-first
traversal converting the reachable subgraph to its immutable form; already
immutable kinds pass through unchanged, `List`/`Dict` get their frozen flag
set, and a Function's pre-evaluated defaults are frozen (spec section 4.2). -/
def freezeV : Value → Value
  | .vnone => .vnone
  | .vbool b => .vbool b
  | .vint n => .vint n
  | .vstr s => .vstr s
  | .vtuple xs => .vtuple (freezeVL xs)
  | .vlist _ xs => .vlist true (freezeVL xs)
  | .vdict _ es => .vdict true (freezeVE es)
  | .vfunc n ps b => .vfunc n (freezeVP ps) b
  | .vnative n => .vnative n
def freezeVL : List Value → List Value
  | [] => []
  | v :: vs => freezeV v :: freezeVL vs
def freezeVE : List (Value × Value) → List (Value × Value)
  | [] => []
  | (k, v) :: es => (freezeV k, freezeV v) :: freezeVE es
def freezeVP : List Param → List Param
  | [] => []
  | .mk n k none a :: ps => .mk n k none a :: freezeVP ps
  | .mk n k (some d) a :: ps => .mk n k (some (freezeV d)) a :: freezeVP ps
end

/-- Modelled from the spec: a Module is a mutable, insertion-ordered mapping
from identifier to Value (spec section 3). -/
structure Module where
  bindings : List (String × Value)

/-- Modelled from the spec: a FrozenModule is the post-freeze, read-only
snapshot of a Module (spec section 3). -/
structure FrozenModule where
  bindings : List (String × Value)

def freezeBindings : List (String × Value) → List (String × Value)
  | [] => []
  | (n, v) :: rest => (n, freezeV v) :: freezeBindings rest

/-- Modelled from the spec: `Module::freeze` — freezing a Module freezes every
reachable global and yields a FrozenModule (spec section 4.2; workflow shown
in the load example of `src/starlark/src/lib.rs`). -/
def Module.freeze (m : Module) : FrozenModule :=
  ⟨freezeBindings m.bindings⟩

/-- Modelled from the spec: `FrozenModule::get` — reads one exported binding
of a frozen module (used by `ab.get("ab")` in the doc example of
`src/starlark/src/lib.rs`). -/
def FrozenModule.get (fm : FrozenModule) (n : String) : Option Value :=
  lookupStr fm.bindings n

/-- `Value::unpack_str` of `src/starlark/src/lib.rs`: `Some` of the content
exactly when the value is a String, `None` for every other kind. -/
def Value.unpack_str : Value → Option String
  | .vstr s => some s
  | _ => none

/-- Host integer range: the reference embedder unpacks to a 32-bit host int
(`fn quadratic(a: i32, ...)` in `src/starlark/src/lib.rs`). -/
def hostIntMin : Int := -(2 ^ 31)

def hostIntMax : Int := 2 ^ 31

/-- `Value::unpack_int` of `src/starlark/src/lib.rs`: `Some n` exactly when
the value is an Int representable in the host integer type, `None`
otherwise. -/
def Value.unpack_int : Value → Option Int
  | .vint n => if hostIntMin ≤ n ∧ n < hostIntMax then some n else none
  | _ => none

/-- The TypeError message of annotation checking, exactly as asserted by the
doc example of `src/starlark/src/lib.rs`:
`Value ,test, of type ,string, does not match the type annotation ,int,`
(with backquotes around the three holes). -/
def typeErrorMsg (v : Value) (ann : String) : String :=
  "Value `" ++ v.display ++ "` of type `" ++ v.typeName ++
    "` does not match the type annotation `" ++ ann ++ "`"

/-- Step 1 of the call protocol (spec section 4.4): fill
positional-or-keyword parameters left-to-right from the supplied positional
arguments; returns the bindings made, the still-unfilled parameters and the
overflow positional arguments. -/
def zipBind : List Param → List Value → List (String × Value) × List Param × List Value
  | ps, [] => ([], ps, [])
  | [], vs => ([], [], vs)
  | p :: ps, v :: vs =>
    let r := zipBind ps vs
    ((p.name, v) :: r.1, r.2.1, r.2.2)

/-- Removes the first keyword argument with the given name, if present. -/
def extractKw (n : String) : List (String × Value) → Option (Value × List (String × Value))
  | [] => none
  | (k, v) :: rest =>
    if k = n then some (v, rest)
    else
      match extractKw n rest with
      | some (w, rest') => some (w, (k, v) :: rest')
      | none => none

/-- Steps 2 and 5 of the call protocol (spec section 4.4): fill each remaining
positional-or-keyword parameter, in order, from a matching keyword argument,
else from its pre-evaluated default, else fail with
TypeError("missing required argument"); returns the bindings made and the
leftover (overflow) keyword arguments. -/
def kwBind : List Param → List (String × Value) → Except EvalErr (List (String × Value) × List (String × Value))
  | [], kw => .ok ([], kw)
  | p :: ps, kw =>
    match extractKw p.name kw with
    | some (v, kw') =>
      match kwBind ps kw' with
      | .error e => .error e
      | .ok (b, rest) => .ok ((p.name, v) :: b, rest)
    | none =>
      match p.default with
      | some d =>
        match kwBind ps kw with
        | .error e => .error e
        | .ok (b, rest) => .ok ((p.name, d) :: b, rest)
      | none => .error (.typeError ("missing required argument `" ++ p.name ++ "`"))

/-- Step 3 of the call protocol (spec section 4.4): overflow positional
arguments are collected into `*args` as a tuple if such a parameter is
declared, else fail with TypeError("too many positional arguments"). -/
def argsBinding (params : List Param) (extraPos : List Value) : Except EvalErr (List (String × Value)) :=
  match params.find? (fun p => p.kind.isArgs) with
  | some p => .ok [(p.name, .vtuple extraPos)]
  | none =>
    match extraPos with
    | [] => .ok []
    | _ :: _ => .error (.typeError "too many positional arguments")

/-- Step 4 of the call protocol (spec section 4.4): overflow keyword arguments
are collected into `**kwargs` as a string-keyed Dict in supply order if such a
parameter is declared, else fail with
TypeError("unexpected keyword argument"). -/
def kwargsBinding (params : List Param) (extraKw : List (String × Value)) : Except EvalErr (List (String × Value)) :=
  match params.find? (fun p => p.kind.isKwargs) with
  | some p => .ok [(p.name, .vdict false (extraKw.map (fun e => (Value.vstr e.1, e.2))))]
  | none =>
    match extraKw with
    | [] => .ok []
    | (n, _) :: _ => .error (.typeError ("unexpected keyword argument `" ++ n ++ "`"))

/-- Step 6 of the call protocol (spec section 4.4): when the dialect enables
type annotations, one bound parameter's runtime type tag is checked against
its declared annotation; a mismatch fails with the TypeError of
`typeErrorMsg`, carrying the literal value, its actual type name and the
expected annotation. -/
def checkAnnot (p : Param) (bound : List (String × Value)) : Except EvalErr Unit :=
  match p.ann with
  | none => .ok ()
  | some a =>
    match lookupStr bound p.name with
    | none => .ok ()
    | some v => if v.typeName = a then .ok () else .error (.typeError (typeErrorMsg v a))

def checkAnnots : List Param → List (String × Value) → Except EvalErr Unit
  | [], _ => .ok ()
  | p :: ps, bound =>
    match checkAnnot p bound with
    | .error e => .error e
    | .ok _ => checkAnnots ps bound

/-- Modelled from the spec: the call / argument-binding protocol of
spec section 4.4, applied in its strict order — (1) positionals left-to-right
into positional-or-keyword parameters, (2) matching keywords into the
remaining ones, (3) overflow positionals into `*args`, (4) overflow keywords
into `**kwargs`, (5) pre-evaluated defaults for still-unbound parameters,
(6) annotation checking of every bound parameter when the dialect enables
types.  Returns the call frame's local bindings in declaration order. -/
def bindArgs (enableTypes : Bool) (params : List Param) (pos : List Value) (kw : List (String × Value)) : Except EvalErr (List (String × Value)) :=
  let normals := params.filter (fun p => p.kind.isNormal)
  let z := zipBind normals pos
  match kwBind z.2.1 kw with
  | .error e => .error e
  | .ok (b2, extraKw) =>
    match argsBinding params z.2.2 with
    | .error e => .error e
    | .ok b3 =>
      match kwargsBinding params extraKw with
      | .error e => .error e
      | .ok b4 =>
        let bound := z.1 ++ b2 ++ b3 ++ b4
        if enableTypes then
          match checkAnnots params bound with
          | .error e => .error e
          | .ok _ => .ok bound
        else .ok bound

/-- Modelled from the spec: a native function registered in the Globals
registry carries a parameter specification and an entry point; the entry
point receives the already-bound arguments plus the host-side context (the
"extra" side channel of spec section 4.4), and may read and update that
context — this is exactly the side-effect channel the determinism contract
talks about. -/
structure NativeDef where
  params : List Param
  impl : List Value → Nat → Except EvalErr Value × Nat

/-- Modelled from the spec: the dialect configuration with its
`enable_types` toggle (spec section 6; `Dialect {enable_types: true, ..}` in
`src/starlark/src/lib.rs`). -/
structure Dialect where
  enable_types : Bool

/-- Modelled from the spec: everything fixed for the lifetime of one
Evaluator — the dialect, the immutable Globals registry of native functions,
and the optional Loader capability resolving load-target names to
FrozenModules (spec sections 4.3 and 4.4). -/
structure Ctx where
  dialect : Dialect
  natives : List (String × NativeDef)
  loader : Option (String → Option FrozenModule)

/-- Modelled from the spec: the mutable evaluation state — the Module's
global bindings, the per-evaluation Loader result cache, the observable event
trace, and the opaque host "extra" context threaded into native calls. -/
structure EvalState where
  globals : List (String × Value)
  loadCache : List (String × FrozenModule)
  trace : List Event
  extra : Nat

/-- A call frame's local bindings: `none` is the module frame, whose locals
are the Module's globals (spec section 4.4); `some locals` is a function
frame. -/
def Frame : Type := Option (List (String × Value))

/-- Modelled from the spec: name resolution order local scope → module
globals → native-function registry, failing with NameError if unresolved
(spec section 4.4). -/
def resolveName (ctx : Ctx) (fr : Frame) (gl : List (String × Value)) (x : String) : Except EvalErr Value :=
  let inGlobals : Except EvalErr Value :=
    match lookupStr gl x with
    | some v => .ok v
    | none =>
      match lookupStr ctx.natives x with
      | some _ => .ok (.vnative x)
      | none => .error (.nameError x)
  match fr with
  | none => inGlobals
  | some loc =>
    match lookupStr loc x with
    | some v => .ok v
    | none => inGlobals

/-- Result of executing one statement: fall through to the next statement, an
early `return` from the enclosing function, or the value of a bare expression
statement (which `eval_module` reports when it is the trailing statement). -/
inductive StmtRes where
  | next
  | retv (v : Value)
  | exprv (v : Value)

/-- Binds the requested exports of a resolved FrozenModule into the module
globals, one name at a time; a missing export fails with LoadError naming it,
and bindings already made persist (spec section 4.3). -/
def loadNames (fm : FrozenModule) (m : String) : List String → List (String × Value) → Except EvalErr Unit × List (String × Value)
  | [], gl => (.ok (), gl)
  | n :: ns, gl =>
    match fm.get n with
    | none => (.error (.loadError ("missing export `" ++ n ++ "` in " ++ m)), gl)
    | some v => loadNames fm m ns (setStr gl n v)

mutual
/-- Modelled from the spec: expression evaluation (spec section 4.4) —
literals, name resolution, tuple/list displays and calls; fueled, failing
with StackOverflow when the call-depth limit (the fuel) is exhausted. -/
def evalExpr : Nat → Ctx → Frame → Expr → EvalState → Except EvalErr Value × EvalState
  | 0, _, _, _, s => (.error .stackOverflow, s)
  | _ + 1, _, _, .enone, s => (.ok .vnone, s)
  | _ + 1, _, _, .ebool b, s => (.ok (.vbool b), s)
  | _ + 1, _, _, .eint n, s => (.ok (.vint n), s)
  | _ + 1, _, _, .estr str, s => (.ok (.vstr str), s)
  | _ + 1, ctx, fr, .ename x, s => (resolveName ctx fr s.globals x, s)
  | f + 1, ctx, fr, .etuple xs, s =>
    match evalExprs f ctx fr xs s with
    | (.error er, s') => (.error er, s')
    | (.ok vs, s') => (.ok (.vtuple vs), s')
  | f + 1, ctx, fr, .elist xs, s =>
    match evalExprs f ctx fr xs s with
    | (.error er, s') => (.error er, s')
    | (.ok vs, s') => (.ok (.vlist false vs), s')
  | f + 1, ctx, fr, .ecall g pos kw, s =>
    match evalExpr f ctx fr g s with
    | (.error er, s') => (.error er, s')
    | (.ok gv, s') =>
      match evalExprs f ctx fr pos s' with
      | (.error er, s'') => (.error er, s'')
      | (.ok posv, s'') =>
        match evalKws f ctx fr kw s'' with
        | (.error er, s3) => (.error er, s3)
        | (.ok kwv, s3) => callValue f ctx gv posv kwv s3
/-- Left-to-right evaluation of an expression list (positional arguments,
tuple/list elements). -/
def evalExprs : Nat → Ctx → Frame → List Expr → EvalState → Except EvalErr (List Value) × EvalState
  | 0, _, _, _, s => (.error .stackOverflow, s)
  | _ + 1, _, _, [], s => (.ok [], s)
  | f + 1, ctx, fr, e :: es, s =>
    match evalExpr f ctx fr e s with
    | (.error er, s') => (.error er, s')
    | (.ok v, s') =>
      match evalExprs f ctx fr es s' with
      | (.error er, s'') => (.error er, s'')
      | (.ok vs, s'') => (.ok (v :: vs), s'')
/-- Left-to-right evaluation of the supplied keyword arguments. -/
def evalKws : Nat → Ctx → Frame → List (String × Expr) → EvalState → Except EvalErr (List (String × Value)) × EvalState
  | 0, _, _, _, s => (.error .stackOverflow, s)
  | _ + 1, _, _, [], s => (.ok [], s)
  | f + 1, ctx, fr, (n, e) :: es, s =>
    match evalExpr f ctx fr e s with
    | (.error er, s') => (.error er, s')
    | (.ok v, s') =>
      match evalKws f ctx fr es s' with
      | (.error er, s'') => (.error er, s'')
      | (.ok vs, s'') => (.ok ((n, v) :: vs), s'')
/-- Modelled from the spec: invoking a callable value (spec section 4.4) —
a user Function binds its arguments through the binding protocol and executes
its body in a fresh call frame; a NativeFunction binds its arguments the same
way and invokes its entry point with the host "extra" context; every other
kind fails with TypeError. -/
def callValue : Nat → Ctx → Value → List Value → List (String × Value) → EvalState → Except EvalErr Value × EvalState
  | 0, _, _, _, _, s => (.error .stackOverflow, s)
  | f + 1, ctx, .vfunc _ params body, posv, kwv, s =>
    match bindArgs ctx.dialect.enable_types params posv kwv with
    | .error er => (.error er, s)
    | .ok locals =>
      match execSeq f ctx (some locals) body s with
      | (.error er, _, s') => (.error er, s')
      | (.ok (.retv rv), _, s') => (.ok rv, s')
      | (.ok _, _, s') => (.ok .vnone, s')
  | _ + 1, ctx, .vnative name, posv, kwv, s =>
    match lookupStr ctx.natives name with
    | none => (.error (.nameError name), s)
    | some nd =>
      match bindArgs ctx.dialect.enable_types nd.params posv kwv with
      | .error er => (.error er, s)
      | .ok bound =>
        let args := nd.params.map (fun p => (lookupStr bound p.name).getD .vnone)
        match nd.impl args s.extra with
        | (.error er, h') => (.error er, { s with extra := h' })
        | (.ok v, h') => (.ok v, { s with extra := h' })
  | _ + 1, _, gv, _, _, s => (.error (.typeError ("not callable: " ++ gv.typeName)), s)
/-- Modelled from the spec: evaluation of a `def` statement's parameter
specifications — each default expression is evaluated exactly once, here at
definition time, producing the Function's pre-evaluated default values and
one `defaultEval` trace event per default (spec section 3, invariant (d)). -/
def evalParams : Nat → Ctx → Frame → String → List PSpec → EvalState → Except EvalErr (List Param) × EvalState
  | 0, _, _, _, _, s => (.error .stackOverflow, s)
  | _ + 1, _, _, _, [], s => (.ok [], s)
  | f + 1, ctx, fr, fname, .mk n k dOpt a :: ps, s =>
    match dOpt with
    | none =>
      match evalParams f ctx fr fname ps s with
      | (.error er, s') => (.error er, s')
      | (.ok rest, s') => (.ok (.mk n k none a :: rest), s')
    | some de =>
      match evalExpr f ctx fr de s with
      | (.error er, s') => (.error er, s')
      | (.ok dv, s') =>
        let s'' := { s' with trace := s'.trace ++ [Event.defaultEval fname n] }
        match evalParams f ctx fr fname ps s'' with
        | (.error er, s3) => (.error er, s3)
        | (.ok rest, s3) => (.ok (.mk n k (some dv) a :: rest), s3)
/-- Modelled from the spec: statement execution (spec section 4.4) — bare
expressions, assignment (to the module globals in the module frame, to the
locals in a function frame), function definition, `load` (top level only,
resolved through the per-evaluation cache), `return` and `pass`. -/
def execStmt : Nat → Ctx → Frame → Stmt → EvalState → Except EvalErr StmtRes × Frame × EvalState
  | 0, _, fr, _, s => (.error .stackOverflow, fr, s)
  | f + 1, ctx, fr, .sexpr e, s =>
    match evalExpr f ctx fr e s with
    | (.error er, s') => (.error er, fr, s')
    | (.ok v, s') => (.ok (.exprv v), fr, s')
  | f + 1, ctx, fr, .sassign x e, s =>
    match evalExpr f ctx fr e s with
    | (.error er, s') => (.error er, fr, s')
    | (.ok v, s') =>
      match fr with
      | none => (.ok .next, none, { s' with globals := setStr s'.globals x v })
      | some loc => (.ok .next, some (setStr loc x v), s')
  | f + 1, ctx, fr, .sdefn name ps body, s =>
    match evalParams f ctx fr name ps s with
    | (.error er, s') => (.error er, fr, s')
    | (.ok params, s') =>
      let fnv := Value.vfunc name params body
      match fr with
      | none => (.ok .next, none, { s' with globals := setStr s'.globals name fnv })
      | some loc => (.ok .next, some (setStr loc name fnv), s')
  | _ + 1, ctx, fr, .sload m names, s =>
    match fr with
    | some _ => (.error (.valueError "load statement not at top level"), fr, s)
    | none =>
      match lookupStr s.loadCache m with
      | some fm =>
        match loadNames fm m names s.globals with
        | (.error er, gl) => (.error er, none, { s with globals := gl })
        | (.ok _, gl) => (.ok .next, none, { s with globals := gl })
      | none =>
        match ctx.loader with
        | none => (.error (.loadError ("no loader to resolve " ++ m)), none, s)
        | some L =>
          let s₁ := { s with trace := s.trace ++ [Event.resolve m] }
          match L m with
          | none => (.error (.loadError ("module not found: " ++ m)), none, s₁)
          | some fm =>
            let s₂ := { s₁ with loadCache := s₁.loadCache ++ [(m, fm)] }
            match loadNames fm m names s₂.globals with
            | (.error er, gl) => (.error er, none, { s₂ with globals := gl })
            | (.ok _, gl) => (.ok .next, none, { s₂ with globals := gl })
  | _ + 1, _, fr, .sreturn none, s => (.ok (.retv .vnone), fr, s)
  | f + 1, ctx, fr, .sreturn (some e), s =>
    match evalExpr f ctx fr e s with
    | (.error er, s') => (.error er, fr, s')
    | (.ok v, s') => (.ok (.retv v), fr, s')
  | _ + 1, _, fr, .spass, s => (.ok .next, fr, s)
/-- Sequential statement execution inside one call frame, stopping at the
first error or early `return` (spec section 4.4). -/
def execSeq : Nat → Ctx → Frame → List Stmt → EvalState → Except EvalErr StmtRes × Frame × EvalState
  | 0, _, fr, _, s => (.error .stackOverflow, fr, s)
  | _ + 1, _, fr, [], s => (.ok .next, fr, s)
  | f + 1, ctx, fr, t :: ts, s =>
    match execStmt f ctx fr t s with
    | (.error er, fr', s') => (.error er, fr', s')
    | (.ok (.retv rv), fr', s') => (.ok (.retv rv), fr', s')
    | (.ok _, fr', s') => execSeq f ctx fr' ts s'
end

/-- Modelled from the spec: the top-level statement walk of `eval_module` —
the module's statements run sequentially in the module frame (whose locals
are the Module's globals); the run returns the value of a trailing bare
expression statement and `None` otherwise, and stops at the first error with
all earlier global mutations retained (spec sections 4.4 and 7). -/
def execTop (f : Nat) (ctx : Ctx) : List Stmt → EvalState → Except EvalErr Value × EvalState
  | [], s => (.ok .vnone, s)
  | [t], s =>
    match execStmt f ctx none t s with
    | (.error er, _, s') => (.error er, s')
    | (.ok (.exprv v), _, s') => (.ok v, s')
    | (.ok _, _, s') => (.ok .vnone, s')
  | t :: t' :: ts, s =>
    match execStmt f ctx none t s with
    | (.error er, _, s') => (.error er, s')
    | (.ok _, _, s') => execTop f ctx (t' :: ts) s'

/-- Prefix runner used to state decomposition properties of `execTop`: runs a
statement list in the module frame for its effects only. -/
def runStmts (f : Nat) (ctx : Ctx) : List Stmt → EvalState → Except EvalErr Unit × EvalState
  | [], s => (.ok (), s)
  | t :: ts, s =>
    match execStmt f ctx none t s with
    | (.error er, _, s') => (.error er, s')
    | (.ok _, _, s') => runStmts f ctx ts s'

/-- A fresh evaluation state over an empty Module, with the given initial
host "extra" context. -/
def freshState (h : Nat) : EvalState :=
  ⟨[], [], [], h⟩

/-- Modelled from the spec: `Evaluator::eval_module` — executes the parsed
module against a fresh empty Module bound to the given context
(spec section 4.4, and the doc examples of `src/starlark/src/lib.rs`). -/
def evalModule (f : Nat) (ctx : Ctx) (ast : List Stmt) (h : Nat) : Except EvalErr Value × EvalState :=
  execTop f ctx ast (freshState h)

/-- The number of Loader resolution calls for module name `m` recorded in an
event trace. -/
def countResolve (m : String) : List Event → Nat
  | [] => 0
  | .resolve m' :: tr => (if m' = m then 1 else 0) + countResolve m tr
  | .defaultEval _ _ :: tr => countResolve m tr

/-- The parts of the evaluation state untouched by pure expression-level
evaluation: the module globals, the Loader cache, and the per-module-name
resolution counts (the trace may still grow by non-resolve events, and the
host "extra" context may change). -/
def preservesCore (s s' : EvalState) : Prop :=
  s'.globals = s.globals ∧ s'.loadCache = s.loadCache ∧
    ∀ m, countResolve m s'.trace = countResolve m s.trace

/-- The caching invariant of spec section 4.3: the Loader has been consulted
for a name exactly as often as that name sits in the cache — at most once. -/
def resolveInv (s : EvalState) : Prop :=
  ∀ m, countResolve m s.trace = (if (lookupStr s.loadCache m).isSome then 1 else 0)

/-- Modelled from the spec: a native function with no observable side effects
— its result does not depend on the host "extra" context and it leaves that
context unchanged (spec section 4.4, determinism contract). -/
def PureNative (impl : List Value → Nat → Except EvalErr Value × Nat) : Prop :=
  ∀ args h, (impl args h).2 = h ∧ (impl args h).1 = (impl args 0).1

/-- A Globals registry containing no side-effecting native functions. -/
def PureCtx (ctx : Ctx) : Prop :=
  ∀ p ∈ ctx.natives, PureNative p.2.impl

/-- Everything two evaluation states must share for the runs to be
observably identical: globals, Loader cache and event trace (the host
"extra" context may differ; only impure natives could observe it). -/
def stEq (s s' : EvalState) : Prop :=
  s.globals = s'.globals ∧ s.loadCache = s'.loadCache ∧ s.trace = s'.trace

/-- A context with no native functions and no loader, as in the plain doc
examples of `src/starlark/src/lib.rs`. -/
def ctxPlain : Ctx := ⟨⟨false⟩, [], none⟩

/-- A stateful `counter()` native: returns the current host counter and
increments it — the canonical side-effecting default expression of the
spec's testable property for definition-time defaults. -/
def counterNative : NativeDef :=
  ⟨[], fun _ h => (.ok (.vint h), h + 1)⟩

def ctxCounter : Ctx := ⟨⟨false⟩, [("counter", counterNative)], none⟩

/-- The statement `def f(x=counter()): return x`. -/
def defCounterF : Stmt :=
  .sdefn "f" [.mk "x" .normal (some (.ecall (.ename "counter") [] [])) none]
    [.sreturn (some (.ename "x"))]

/-- The statement `f()`. -/
def callF : Stmt := .sexpr (.ecall (.ename "f") [] [])

/-- A frozen dependency module binding `x = 7` and `y = 6`. -/
def fmA : FrozenModule := ⟨[("x", .vint 7), ("y", .vint 6)]⟩

/-- A context whose loader resolves exactly the module name `"a.star"`. -/
def ctxLoad : Ctx := ⟨⟨false⟩, [], some (fun n => if n = "a.star" then some fmA else none)⟩

/-- The evaluation state right after executing `def f(x=counter()): return x`
against `ctxCounter` from a fresh state: the Function value stores the
pre-evaluated default `0`, the trace records exactly one default evaluation,
and the host counter has been bumped to `1` by that single `counter()`
call. -/
def stateAfterDefC7 : EvalState :=
  ⟨[("f", .vfunc "f" [.mk "x" .normal (some (.vint 0)) none] [.sreturn (some (.ename "x"))])],
    [], [.defaultEval "f" "x"], 1⟩

/-! ### Freeze pass: idempotence -/

mutual
theorem freezeV_idem : ∀ v, freezeV (freezeV v) = freezeV v
  | .vnone => rfl
  | .vbool _ => rfl
  | .vint _ => rfl
  | .vstr _ => rfl
  | .vtuple xs => by simp [freezeV, freezeVL_idem xs]
  | .vlist _ xs => by simp [freezeV, freezeVL_idem xs]
  | .vdict _ es => by simp [freezeV, freezeVE_idem es]
  | .vfunc n ps b => by simp [freezeV, freezeVP_idem ps]
  | .vnative _ => rfl
theorem freezeVL_idem : ∀ xs, freezeVL (freezeVL xs) = freezeVL xs
  | [] => rfl
  | v :: vs => by simp [freezeVL, freezeV_idem v, freezeVL_idem vs]
theorem freezeVE_idem : ∀ es, freezeVE (freezeVE es) = freezeVE es
  | [] => rfl
  | (k, v) :: es => by simp [freezeVE, freezeV_idem k, freezeV_idem v, freezeVE_idem es]
theorem freezeVP_idem : ∀ ps, freezeVP (freezeVP ps) = freezeVP ps
  | [] => rfl
  | .mk n k none a :: ps => by simp [freezeVP, freezeVP_idem ps]
  | .mk n k (some d) a :: ps => by simp [freezeVP, freezeV_idem d, freezeVP_idem ps]
end

/-! ### Dict entry lists -/

mutual
theorem valEq_refl_of_hashable : ∀ v, isHashable v = true → valEq v v = true
  | .vnone, _ => rfl
  | .vbool b, _ => by simp [valEq]
  | .vint n, _ => by simp [valEq]
  | .vstr s, _ => by simp [valEq]
  | .vtuple xs, h => by
    simp only [isHashable] at h
    simpa [valEq] using valEqL_refl_of_hashable xs h
theorem valEqL_refl_of_hashable : ∀ vs, isHashableL vs = true → valEqL vs vs = true
  | [], _ => rfl
  | v :: vs, h => by
    simp only [isHashableL, Bool.and_eq_true] at h
    simp [valEqL, valEq_refl_of_hashable v h.1, valEqL_refl_of_hashable vs h.2]
end

theorem dictLookup_dictSet (es : List (Value × Value)) (k v : Value)
    (hk : valEq k k = true) : dictLookup (dictSet es k v) k = some v := by
  induction es with
  | nil => simp [dictSet, dictLookup, hk]
  | cons e es ih =>
    obtain ⟨k', v'⟩ := e
    by_cases h : valEq k' k
    · simp [dictSet, h, dictLookup]
    · simp [dictSet, h, dictLookup, ih]

theorem dictSet_keys (es : List (Value × Value)) (k v : Value) :
    (dictSet es k v).map Prod.fst =
      (if dictHasKey es k then es.map Prod.fst else es.map Prod.fst ++ [k]) := by
  induction es with
  | nil => simp [dictSet, dictHasKey]
  | cons e es ih =>
    obtain ⟨k', v'⟩ := e
    by_cases h : valEq k' k
    · simp [dictSet, h, dictHasKey]
    · by_cases h2 : dictHasKey es k
      · simp [dictSet, h, dictHasKey, h2, ih]
      · simp [dictSet, h, dictHasKey, h2, ih]

/-! ### Frozen modules -/

theorem lookupStr_freezeBindings (m : List (String × Value)) (n : String) :
    lookupStr (freezeBindings m) n = (lookupStr m n).map freezeV := by
  induction m with
  | nil => simp [freezeBindings, lookupStr]
  | cons e rest ih =>
    obtain ⟨k, v⟩ := e
    by_cases h : k = n
    · simp [freezeBindings, lookupStr, h]
    · simp [freezeBindings, lookupStr, h, ih]

/-! ### Association lists and traces -/

theorem lookupStr_mem {α : Type} (l : List (String × α)) (x : String) (v : α)
    (h : lookupStr l x = some v) : (x, v) ∈ l := by
  induction l with
  | nil => simp [lookupStr] at h
  | cons e rest ih =>
    obtain ⟨k, w⟩ := e
    by_cases hk : k = x
    · subst hk
      simp [lookupStr] at h
      simp [h]
    · simp [lookupStr, hk] at h
      simp [ih h]

theorem lookupStr_append {α : Type} (l₁ l₂ : List (String × α)) (x : String) :
    lookupStr (l₁ ++ l₂) x =
      match lookupStr l₁ x with
      | some v => some v
      | none => lookupStr l₂ x := by
  induction l₁ with
  | nil => simp [lookupStr]
  | cons e rest ih =>
    obtain ⟨k, w⟩ := e
    by_cases hk : k = x
    · simp [lookupStr, hk]
    · simp [lookupStr, hk, ih]

theorem lookupStr_setStr_isSome {α : Type} (l : List (String × α)) (x : String) (v : α)
    (n : String) (h : (lookupStr l n).isSome) : (lookupStr (setStr l x v) n).isSome := by
  induction l with
  | nil => simp [lookupStr] at h
  | cons e rest ih =>
    obtain ⟨k, w⟩ := e
    by_cases hk : k = x
    · subst hk
      by_cases hn : k = n <;> simp_all [lookupStr, setStr]
    · by_cases hn : k = n
      all_goals simp_all [lookupStr, setStr]

theorem countResolve_append (m : String) (tr tr' : List Event) :
    countResolve m (tr ++ tr') = countResolve m tr + countResolve m tr' := by
  induction tr with
  | nil => simp [countResolve]
  | cons ev tr ih =>
    cases ev
    all_goals simp [countResolve, ih]
    all_goals omega

theorem preservesCore_refl (s : EvalState) : preservesCore s s :=
  ⟨rfl, rfl, fun _ => rfl⟩

theorem preservesCore_trans {s₁ s₂ s₃ : EvalState}
    (h₁ : preservesCore s₁ s₂) (h₂ : preservesCore s₂ s₃) : preservesCore s₁ s₃ :=
  ⟨h₂.1.trans h₁.1, h₂.2.1.trans h₁.2.1, fun m => (h₂.2.2 m).trans (h₁.2.2 m)⟩

theorem resolveInv_of_preservesCore {s s' : EvalState}
    (hp : preservesCore s s') (h : resolveInv s) : resolveInv s' := by
  intro m
  rw [hp.2.2 m, hp.2.1]
  exact h m

theorem resolveInv_le_one {s : EvalState} (h : resolveInv s) (m : String) :
    countResolve m s.trace ≤ 1 := by
  rw [h m]
  split <;> omega

/-! ### Expression-level evaluation preserves globals, cache and resolve counts -/

theorem preservesCore_extra (s : EvalState) (h : Nat) :
    preservesCore s { s with extra := h } :=
  ⟨rfl, rfl, fun _ => rfl⟩

theorem preservesCore_defaultEval (s : EvalState) (a b : String) :
    preservesCore s { s with trace := s.trace ++ [Event.defaultEval a b] } := by
  refine ⟨rfl, rfl, fun m => ?_⟩
  simp [countResolve_append, countResolve]

theorem pres_all (ctx : Ctx) : ∀ f : Nat,
    (∀ fr e s, preservesCore s (evalExpr f ctx fr e s).2) ∧
    (∀ fr es s, preservesCore s (evalExprs f ctx fr es s).2) ∧
    (∀ fr kws s, preservesCore s (evalKws f ctx fr kws s).2) ∧
    (∀ gv posv kwv s, preservesCore s (callValue f ctx gv posv kwv s).2) ∧
    (∀ fr fname ps s, preservesCore s (evalParams f ctx fr fname ps s).2) ∧
    (∀ loc t s, preservesCore s (execStmt f ctx (some loc) t s).2.2 ∧
      ∃ loc', (execStmt f ctx (some loc) t s).2.1 = some loc') ∧
    (∀ loc ts s, preservesCore s (execSeq f ctx (some loc) ts s).2.2 ∧
      ∃ loc', (execSeq f ctx (some loc) ts s).2.1 = some loc') := by
  intro f
  induction f with
  | zero =>
    exact ⟨fun _ _ s => preservesCore_refl s, fun _ _ s => preservesCore_refl s,
      fun _ _ s => preservesCore_refl s, fun _ _ _ s => preservesCore_refl s,
      fun _ _ _ s => preservesCore_refl s,
      fun loc _ s => ⟨preservesCore_refl s, loc, rfl⟩,
      fun loc _ s => ⟨preservesCore_refl s, loc, rfl⟩⟩
  | succ f ih =>
    obtain ⟨ihE, ihEs, ihK, ihC, ihP, ihSt, ihSq⟩ := ih
    refine ⟨?_, ?_, ?_, ?_, ?_, ?_, ?_⟩
    · -- evalExpr
      intro fr e s
      cases e with
      | enone => exact preservesCore_refl s
      | ebool b => exact preservesCore_refl s
      | eint n => exact preservesCore_refl s
      | estr str => exact preservesCore_refl s
      | ename x => exact preservesCore_refl s
      | etuple xs =>
        have h := ihEs fr xs s
        rcases hx : evalExprs f ctx fr xs s with ⟨r, s'⟩
        rw [hx] at h
        cases r <;> simp only [evalExpr, hx] <;> exact h
      | elist xs =>
        have h := ihEs fr xs s
        rcases hx : evalExprs f ctx fr xs s with ⟨r, s'⟩
        rw [hx] at h
        cases r <;> simp only [evalExpr, hx] <;> exact h
      | ecall g pos kw =>
        have h1 := ihE fr g s
        rcases hg : evalExpr f ctx fr g s with ⟨r1, s1⟩
        rw [hg] at h1
        cases r1 with
        | error er => simpa only [evalExpr, hg] using h1
        | ok gv =>
          have h2 := ihEs fr pos s1
          rcases hp : evalExprs f ctx fr pos s1 with ⟨r2, s2⟩
          rw [hp] at h2
          cases r2 with
          | error er =>
            simpa only [evalExpr, hg, hp] using preservesCore_trans h1 h2
          | ok posv =>
            have h3 := ihK fr kw s2
            rcases hk : evalKws f ctx fr kw s2 with ⟨r3, s3⟩
            rw [hk] at h3
            cases r3 with
            | error er =>
              simpa only [evalExpr, hg, hp, hk] using
                preservesCore_trans (preservesCore_trans h1 h2) h3
            | ok kwv =>
              have h4 := ihC gv posv kwv s3
              simpa only [evalExpr, hg, hp, hk] using
                preservesCore_trans (preservesCore_trans (preservesCore_trans h1 h2) h3) h4
    · -- evalExprs
      intro fr es s
      cases es with
      | nil => exact preservesCore_refl s
      | cons e rest =>
        have h1 := ihE fr e s
        rcases he : evalExpr f ctx fr e s with ⟨r1, s1⟩
        rw [he] at h1
        cases r1 with
        | error er => simpa only [evalExprs, he] using h1
        | ok v =>
          have h2 := ihEs fr rest s1
          rcases hr : evalExprs f ctx fr rest s1 with ⟨r2, s2⟩
          rw [hr] at h2
          cases r2 <;> simp only [evalExprs, he, hr] <;>
            exact preservesCore_trans h1 h2
    · -- evalKws
      intro fr kws s
      cases kws with
      | nil => exact preservesCore_refl s
      | cons e rest =>
        obtain ⟨n, e⟩ := e
        have h1 := ihE fr e s
        rcases he : evalExpr f ctx fr e s with ⟨r1, s1⟩
        rw [he] at h1
        cases r1 with
        | error er => simpa only [evalKws, he] using h1
        | ok v =>
          have h2 := ihK fr rest s1
          rcases hr : evalKws f ctx fr rest s1 with ⟨r2, s2⟩
          rw [hr] at h2
          cases r2 <;> simp only [evalKws, he, hr] <;>
            exact preservesCore_trans h1 h2
    · -- callValue
      intro gv posv kwv s
      cases gv with
      | vfunc name params body =>
        cases hb : bindArgs ctx.dialect.enable_types params posv kwv with
        | error er => simp only [callValue, hb]; exact preservesCore_refl s
        | ok locals =>
          have h := (ihSq locals body s).1
          rcases hsq : execSeq f ctx (some locals) body s with ⟨r, fr2, s'⟩
          rw [hsq] at h
          cases r with
          | error er => simpa only [callValue, hb, hsq] using h
          | ok u => cases u <;> simp only [callValue, hb, hsq] <;> exact h
      | vnative name =>
        cases hn : lookupStr ctx.natives name with
        | none => simp only [callValue, hn]; exact preservesCore_refl s
        | some nd =>
          cases hb : bindArgs ctx.dialect.enable_types nd.params posv kwv with
          | error er => simp only [callValue, hn, hb]; exact preservesCore_refl s
          | ok bound =>
            rcases hi : nd.impl (nd.params.map (fun p => (lookupStr bound p.name).getD .vnone)) s.extra with ⟨rv, h'⟩
            cases rv <;> simp only [callValue, hn, hb, hi] <;>
              exact preservesCore_extra s h'
      | vnone => exact preservesCore_refl s
      | vbool b => exact preservesCore_refl s
      | vint n => exact preservesCore_refl s
      | vstr str => exact preservesCore_refl s
      | vtuple xs => exact preservesCore_refl s
      | vlist fz xs => exact preservesCore_refl s
      | vdict fz es => exact preservesCore_refl s
    · -- evalParams
      intro fr fname ps s
      cases ps with
      | nil => exact preservesCore_refl s
      | cons p rest =>
        obtain ⟨n, k, dOpt, a⟩ := p
        cases dOpt with
        | none =>
          have h := ihP fr fname rest s
          rcases hr : evalParams f ctx fr fname rest s with ⟨r, s'⟩
          rw [hr] at h
          cases r <;> simp only [evalParams, hr] <;> exact h
        | some de =>
          have h1 := ihE fr de s
          rcases he : evalExpr f ctx fr de s with ⟨r1, s1⟩
          rw [he] at h1
          cases r1 with
          | error er => simpa only [evalParams, he] using h1
          | ok dv =>
            have htr := preservesCore_defaultEval s1 fname n
            have h2 := ihP fr fname rest { s1 with trace := s1.trace ++ [Event.defaultEval fname n] }
            rcases hr : evalParams f ctx fr fname rest { s1 with trace := s1.trace ++ [Event.defaultEval fname n] } with ⟨r2, s2⟩
            rw [hr] at h2
            cases r2 <;> simp only [evalParams, he, hr] <;>
              exact preservesCore_trans (preservesCore_trans h1 htr) h2
    · -- execStmt in a function frame
      intro loc t s
      cases t with
      | sexpr e =>
        have h1 := ihE (some loc) e s
        rcases he : evalExpr f ctx (some loc) e s with ⟨r1, s1⟩
        rw [he] at h1
        cases r1 <;> simp only [execStmt, he] <;> exact ⟨h1, loc, rfl⟩
      | sassign x e =>
        have h1 := ihE (some loc) e s
        rcases he : evalExpr f ctx (some loc) e s with ⟨r1, s1⟩
        rw [he] at h1
        cases r1 with
        | error er => simp only [execStmt, he]; exact ⟨h1, loc, rfl⟩
        | ok v => simp only [execStmt, he]; exact ⟨h1, setStr loc x v, rfl⟩
      | sdefn name ps body =>
        have h1 := ihP (some loc) name ps s
        rcases he : evalParams f ctx (some loc) name ps s with ⟨r1, s1⟩
        rw [he] at h1
        cases r1 with
        | error er => simp only [execStmt, he]; exact ⟨h1, loc, rfl⟩
        | ok params =>
          simp only [execStmt, he]
          exact ⟨h1, setStr loc name (.vfunc name params body), rfl⟩
      | sload m names => exact ⟨preservesCore_refl s, loc, rfl⟩
      | sreturn e =>
        cases e with
        | none => exact ⟨preservesCore_refl s, loc, rfl⟩
        | some e =>
          have h1 := ihE (some loc) e s
          rcases he : evalExpr f ctx (some loc) e s with ⟨r1, s1⟩
          rw [he] at h1
          cases r1 <;> simp only [execStmt, he] <;> exact ⟨h1, loc, rfl⟩
      | spass => exact ⟨preservesCore_refl s, loc, rfl⟩
    · -- execSeq in a function frame
      intro loc ts s
      cases ts with
      | nil => exact ⟨preservesCore_refl s, loc, rfl⟩
      | cons t rest =>
        have hSt := ihSt loc t s
        rcases hst : execStmt f ctx (some loc) t s with ⟨r, fr', s'⟩
        rw [hst] at hSt
        obtain ⟨hpc, loc', hfr⟩ := hSt
        simp only at hfr
        subst hfr
        cases r with
        | error er => simp only [execSeq, hst]; exact ⟨hpc, loc', rfl⟩
        | ok u =>
          cases u with
          | retv rv => simp only [execSeq, hst]; exact ⟨hpc, loc', rfl⟩
          | next =>
            have hq := ihSq loc' rest s'
            rcases hsq : execSeq f ctx (some loc') rest s' with ⟨r2, fr2, s2⟩
            rw [hsq] at hq
            obtain ⟨hpc2, loc2, hfr2⟩ := hq
            simp only [execSeq, hst, hsq]
            exact ⟨preservesCore_trans hpc hpc2, loc2, hfr2⟩
          | exprv v =>
            have hq := ihSq loc' rest s'
            rcases hsq : execSeq f ctx (some loc') rest s' with ⟨r2, fr2, s2⟩
            rw [hsq] at hq
            obtain ⟨hpc2, loc2, hfr2⟩ := hq
            simp only [execSeq, hst, hsq]
            exact ⟨preservesCore_trans hpc hpc2, loc2, hfr2⟩

/-! ### Determinism: runs differing only in host state coincide -/

theorem ni_all (ctx : Ctx) (hpure : PureCtx ctx) : ∀ f : Nat,
    (∀ fr e s₁ s₂, stEq s₁ s₂ →
      (evalExpr f ctx fr e s₁).1 = (evalExpr f ctx fr e s₂).1 ∧
      stEq (evalExpr f ctx fr e s₁).2 (evalExpr f ctx fr e s₂).2) ∧
    (∀ fr es s₁ s₂, stEq s₁ s₂ →
      (evalExprs f ctx fr es s₁).1 = (evalExprs f ctx fr es s₂).1 ∧
      stEq (evalExprs f ctx fr es s₁).2 (evalExprs f ctx fr es s₂).2) ∧
    (∀ fr kws s₁ s₂, stEq s₁ s₂ →
      (evalKws f ctx fr kws s₁).1 = (evalKws f ctx fr kws s₂).1 ∧
      stEq (evalKws f ctx fr kws s₁).2 (evalKws f ctx fr kws s₂).2) ∧
    (∀ gv posv kwv s₁ s₂, stEq s₁ s₂ →
      (callValue f ctx gv posv kwv s₁).1 = (callValue f ctx gv posv kwv s₂).1 ∧
      stEq (callValue f ctx gv posv kwv s₁).2 (callValue f ctx gv posv kwv s₂).2) ∧
    (∀ fr fname ps s₁ s₂, stEq s₁ s₂ →
      (evalParams f ctx fr fname ps s₁).1 = (evalParams f ctx fr fname ps s₂).1 ∧
      stEq (evalParams f ctx fr fname ps s₁).2 (evalParams f ctx fr fname ps s₂).2) ∧
    (∀ fr t s₁ s₂, stEq s₁ s₂ →
      (execStmt f ctx fr t s₁).1 = (execStmt f ctx fr t s₂).1 ∧
      (execStmt f ctx fr t s₁).2.1 = (execStmt f ctx fr t s₂).2.1 ∧
      stEq (execStmt f ctx fr t s₁).2.2 (execStmt f ctx fr t s₂).2.2) ∧
    (∀ fr ts s₁ s₂, stEq s₁ s₂ →
      (execSeq f ctx fr ts s₁).1 = (execSeq f ctx fr ts s₂).1 ∧
      (execSeq f ctx fr ts s₁).2.1 = (execSeq f ctx fr ts s₂).2.1 ∧
      stEq (execSeq f ctx fr ts s₁).2.2 (execSeq f ctx fr ts s₂).2.2) := by
  intro f
  induction f with
  | zero =>
    exact ⟨fun _ _ _ _ h => ⟨rfl, h⟩, fun _ _ _ _ h => ⟨rfl, h⟩, fun _ _ _ _ h => ⟨rfl, h⟩,
      fun _ _ _ _ _ h => ⟨rfl, h⟩, fun _ _ _ _ _ h => ⟨rfl, h⟩,
      fun _ _ _ _ h => ⟨rfl, rfl, h⟩, fun _ _ _ _ h => ⟨rfl, rfl, h⟩⟩
  | succ f ih =>
    obtain ⟨ihE, ihEs, ihK, ihC, ihP, ihSt, ihSq⟩ := ih
    refine ⟨?_, ?_, ?_, ?_, ?_, ?_, ?_⟩
    · -- evalExpr
      intro fr e s₁ s₂ h
      cases e with
      | enone => exact ⟨by trivial, h⟩
      | ebool b => exact ⟨by trivial, h⟩
      | eint n => exact ⟨by trivial, h⟩
      | estr str => exact ⟨by trivial, h⟩
      | ename x =>
        simp only [evalExpr]
        exact ⟨by rw [h.1], h⟩
      | etuple xs =>
        obtain ⟨hr, hs⟩ := ihEs fr xs s₁ s₂ h
        rcases h1 : evalExprs f ctx fr xs s₁ with ⟨r1, t1⟩
        rcases h2 : evalExprs f ctx fr xs s₂ with ⟨r2, t2⟩
        rw [h1, h2] at hr hs
        have hr' : r1 = r2 := hr
        have hs' : stEq t1 t2 := hs
        subst hr'
        cases r1 <;> simp only [evalExpr, h1, h2] <;> exact ⟨by trivial, hs'⟩
      | elist xs =>
        obtain ⟨hr, hs⟩ := ihEs fr xs s₁ s₂ h
        rcases h1 : evalExprs f ctx fr xs s₁ with ⟨r1, t1⟩
        rcases h2 : evalExprs f ctx fr xs s₂ with ⟨r2, t2⟩
        rw [h1, h2] at hr hs
        have hr' : r1 = r2 := hr
        have hs' : stEq t1 t2 := hs
        subst hr'
        cases r1 <;> simp only [evalExpr, h1, h2] <;> exact ⟨by trivial, hs'⟩
      | ecall g pos kw =>
        obtain ⟨hr, hs⟩ := ihE fr g s₁ s₂ h
        rcases h1 : evalExpr f ctx fr g s₁ with ⟨r1, t1⟩
        rcases h2 : evalExpr f ctx fr g s₂ with ⟨r2, t2⟩
        rw [h1, h2] at hr hs
        have hr' : r1 = r2 := hr
        have hs' : stEq t1 t2 := hs
        subst hr'
        cases r1 with
        | error er => simp only [evalExpr, h1, h2]; exact ⟨by trivial, hs'⟩
        | ok gv =>
          obtain ⟨hr2, hs2⟩ := ihEs fr pos t1 t2 hs'
          rcases h3 : evalExprs f ctx fr pos t1 with ⟨r3, t3⟩
          rcases h4 : evalExprs f ctx fr pos t2 with ⟨r4, t4⟩
          rw [h3, h4] at hr2 hs2
          have hr2' : r3 = r4 := hr2
          have hs2' : stEq t3 t4 := hs2
          subst hr2'
          cases r3 with
          | error er => simp only [evalExpr, h1, h2, h3, h4]; exact ⟨by trivial, hs2'⟩
          | ok posv =>
            obtain ⟨hr3, hs3⟩ := ihK fr kw t3 t4 hs2'
            rcases h5 : evalKws f ctx fr kw t3 with ⟨r5, t5⟩
            rcases h6 : evalKws f ctx fr kw t4 with ⟨r6, t6⟩
            rw [h5, h6] at hr3 hs3
            have hr3' : r5 = r6 := hr3
            have hs3' : stEq t5 t6 := hs3
            subst hr3'
            cases r5 with
            | error er => simp only [evalExpr, h1, h2, h3, h4, h5, h6]; exact ⟨by trivial, hs3'⟩
            | ok kwv =>
              obtain ⟨hr4, hs4⟩ := ihC gv posv kwv t5 t6 hs3'
              simp only [evalExpr, h1, h2, h3, h4, h5, h6]
              exact ⟨hr4, hs4⟩
    · -- evalExprs
      intro fr es s₁ s₂ h
      cases es with
      | nil => exact ⟨by trivial, h⟩
      | cons e rest =>
        obtain ⟨hr, hs⟩ := ihE fr e s₁ s₂ h
        rcases h1 : evalExpr f ctx fr e s₁ with ⟨r1, t1⟩
        rcases h2 : evalExpr f ctx fr e s₂ with ⟨r2, t2⟩
        rw [h1, h2] at hr hs
        have hr' : r1 = r2 := hr
        have hs' : stEq t1 t2 := hs
        subst hr'
        cases r1 with
        | error er => simp only [evalExprs, h1, h2]; exact ⟨by trivial, hs'⟩
        | ok v =>
          obtain ⟨hr2, hs2⟩ := ihEs fr rest t1 t2 hs'
          rcases h3 : evalExprs f ctx fr rest t1 with ⟨r3, t3⟩
          rcases h4 : evalExprs f ctx fr rest t2 with ⟨r4, t4⟩
          rw [h3, h4] at hr2 hs2
          have hr2' : r3 = r4 := hr2
          have hs2' : stEq t3 t4 := hs2
          subst hr2'
          cases r3 <;> simp only [evalExprs, h1, h2, h3, h4] <;> exact ⟨by trivial, hs2'⟩
    · -- evalKws
      intro fr kws s₁ s₂ h
      cases kws with
      | nil => exact ⟨by trivial, h⟩
      | cons e rest =>
        obtain ⟨n, e⟩ := e
        obtain ⟨hr, hs⟩ := ihE fr e s₁ s₂ h
        rcases h1 : evalExpr f ctx fr e s₁ with ⟨r1, t1⟩
        rcases h2 : evalExpr f ctx fr e s₂ with ⟨r2, t2⟩
        rw [h1, h2] at hr hs
        have hr' : r1 = r2 := hr
        have hs' : stEq t1 t2 := hs
        subst hr'
        cases r1 with
        | error er => simp only [evalKws, h1, h2]; exact ⟨by trivial, hs'⟩
        | ok v =>
          obtain ⟨hr2, hs2⟩ := ihK fr rest t1 t2 hs'
          rcases h3 : evalKws f ctx fr rest t1 with ⟨r3, t3⟩
          rcases h4 : evalKws f ctx fr rest t2 with ⟨r4, t4⟩
          rw [h3, h4] at hr2 hs2
          have hr2' : r3 = r4 := hr2
          have hs2' : stEq t3 t4 := hs2
          subst hr2'
          cases r3 <;> simp only [evalKws, h1, h2, h3, h4] <;> exact ⟨by trivial, hs2'⟩
    · -- callValue
      intro gv posv kwv s₁ s₂ h
      cases gv with
      | vfunc name params body =>
        cases hb : bindArgs ctx.dialect.enable_types params posv kwv with
        | error er => simp only [callValue, hb]; exact ⟨by trivial, h⟩
        | ok locals =>
          obtain ⟨hrs, hfr, hsq⟩ := ihSq (some locals) body s₁ s₂ h
          rcases h1 : execSeq f ctx (some locals) body s₁ with ⟨r1, fr1, t1⟩
          rcases h2 : execSeq f ctx (some locals) body s₂ with ⟨r2, fr2, t2⟩
          rw [h1, h2] at hrs hfr hsq
          have hrs' : r1 = r2 := hrs
          have hsq' : stEq t1 t2 := hsq
          subst hrs'
          cases r1 with
          | error er => simp only [callValue, hb, h1, h2]; exact ⟨by trivial, hsq'⟩
          | ok u => cases u <;> simp only [callValue, hb, h1, h2] <;> exact ⟨by trivial, hsq'⟩
      | vnative name =>
        cases hn : lookupStr ctx.natives name with
        | none => simp only [callValue, hn]; exact ⟨by trivial, h⟩
        | some nd =>
          cases hb : bindArgs ctx.dialect.enable_types nd.params posv kwv with
          | error er => simp only [callValue, hn, hb]; exact ⟨by trivial, h⟩
          | ok bound =>
            have hpn := hpure (name, nd) (lookupStr_mem ctx.natives name nd hn)
            have hp1 := hpn (nd.params.map (fun p => (lookupStr bound p.name).getD .vnone)) s₁.extra
            have hp2 := hpn (nd.params.map (fun p => (lookupStr bound p.name).getD .vnone)) s₂.extra
            rcases hi1 : nd.impl (nd.params.map (fun p => (lookupStr bound p.name).getD .vnone)) s₁.extra with ⟨rv1, e1⟩
            rcases hi2 : nd.impl (nd.params.map (fun p => (lookupStr bound p.name).getD .vnone)) s₂.extra with ⟨rv2, e2⟩
            rw [hi1] at hp1
            rw [hi2] at hp2
            have hrv : rv1 = rv2 := by
              have a1 : rv1 = (nd.impl (nd.params.map (fun p => (lookupStr bound p.name).getD .vnone)) 0).1 := hp1.2
              have a2 : rv2 = (nd.impl (nd.params.map (fun p => (lookupStr bound p.name).getD .vnone)) 0).1 := hp2.2
              rw [a1, a2]
            subst hrv
            cases rv1 <;> simp only [callValue, hn, hb, hi1, hi2] <;>
              exact ⟨by trivial, h.1, h.2.1, h.2.2⟩
      | vnone => exact ⟨by trivial, h⟩
      | vbool b => exact ⟨by trivial, h⟩
      | vint n => exact ⟨by trivial, h⟩
      | vstr str => exact ⟨by trivial, h⟩
      | vtuple xs => exact ⟨by trivial, h⟩
      | vlist fz xs => exact ⟨by trivial, h⟩
      | vdict fz es => exact ⟨by trivial, h⟩
    · -- evalParams
      intro fr fname ps s₁ s₂ h
      cases ps with
      | nil => exact ⟨by trivial, h⟩
      | cons p rest =>
        obtain ⟨n, k, dOpt, a⟩ := p
        cases dOpt with
        | none =>
          obtain ⟨hr, hs⟩ := ihP fr fname rest s₁ s₂ h
          rcases h1 : evalParams f ctx fr fname rest s₁ with ⟨r1, t1⟩
          rcases h2 : evalParams f ctx fr fname rest s₂ with ⟨r2, t2⟩
          rw [h1, h2] at hr hs
          have hr' : r1 = r2 := hr
          have hs' : stEq t1 t2 := hs
          subst hr'
          cases r1 <;> simp only [evalParams, h1, h2] <;> exact ⟨by trivial, hs'⟩
        | some de =>
          obtain ⟨hr, hs⟩ := ihE fr de s₁ s₂ h
          rcases h1 : evalExpr f ctx fr de s₁ with ⟨r1, t1⟩
          rcases h2 : evalExpr f ctx fr de s₂ with ⟨r2, t2⟩
          rw [h1, h2] at hr hs
          have hr' : r1 = r2 := hr
          have hs' : stEq t1 t2 := hs
          subst hr'
          cases r1 with
          | error er => simp only [evalParams, h1, h2]; exact ⟨by trivial, hs'⟩
          | ok dv =>
            have hs'' : stEq { t1 with trace := t1.trace ++ [Event.defaultEval fname n] }
                { t2 with trace := t2.trace ++ [Event.defaultEval fname n] } :=
              ⟨hs'.1, hs'.2.1, by rw [hs'.2.2]⟩
            obtain ⟨hr2, hs2⟩ := ihP fr fname rest _ _ hs''
            rcases h3 : evalParams f ctx fr fname rest
                { t1 with trace := t1.trace ++ [Event.defaultEval fname n] } with ⟨r3, t3⟩
            rcases h4 : evalParams f ctx fr fname rest
                { t2 with trace := t2.trace ++ [Event.defaultEval fname n] } with ⟨r4, t4⟩
            rw [h3, h4] at hr2 hs2
            have hr2' : r3 = r4 := hr2
            have hs2' : stEq t3 t4 := hs2
            subst hr2'
            cases r3 <;> simp only [evalParams, h1, h2, h3, h4] <;> exact ⟨by trivial, hs2'⟩
    · -- execStmt
      intro fr t s₁ s₂ h
      cases t with
      | sexpr e =>
        obtain ⟨hr, hs⟩ := ihE fr e s₁ s₂ h
        rcases h1 : evalExpr f ctx fr e s₁ with ⟨r1, t1⟩
        rcases h2 : evalExpr f ctx fr e s₂ with ⟨r2, t2⟩
        rw [h1, h2] at hr hs
        have hr' : r1 = r2 := hr
        have hs' : stEq t1 t2 := hs
        subst hr'
        cases r1 <;> simp only [execStmt, h1, h2] <;> exact ⟨by trivial, by trivial, hs'⟩
      | sassign x e =>
        obtain ⟨hr, hs⟩ := ihE fr e s₁ s₂ h
        rcases h1 : evalExpr f ctx fr e s₁ with ⟨r1, t1⟩
        rcases h2 : evalExpr f ctx fr e s₂ with ⟨r2, t2⟩
        rw [h1, h2] at hr hs
        have hr' : r1 = r2 := hr
        have hs' : stEq t1 t2 := hs
        subst hr'
        cases r1 with
        | error er => simp only [execStmt, h1, h2]; exact ⟨by trivial, by trivial, hs'⟩
        | ok v =>
          cases fr with
          | none =>
            simp only [execStmt, h1, h2]
            exact ⟨by trivial, by trivial, by rw [hs'.1], hs'.2.1, hs'.2.2⟩
          | some loc =>
            simp only [execStmt, h1, h2]
            exact ⟨by trivial, by trivial, hs'⟩
      | sdefn name ps body =>
        obtain ⟨hr, hs⟩ := ihP fr name ps s₁ s₂ h
        rcases h1 : evalParams f ctx fr name ps s₁ with ⟨r1, t1⟩
        rcases h2 : evalParams f ctx fr name ps s₂ with ⟨r2, t2⟩
        rw [h1, h2] at hr hs
        have hr' : r1 = r2 := hr
        have hs' : stEq t1 t2 := hs
        subst hr'
        cases r1 with
        | error er => simp only [execStmt, h1, h2]; exact ⟨by trivial, by trivial, hs'⟩
        | ok params =>
          cases fr with
          | none =>
            simp only [execStmt, h1, h2]
            exact ⟨by trivial, by trivial, by rw [hs'.1], hs'.2.1, hs'.2.2⟩
          | some loc =>
            simp only [execStmt, h1, h2]
            exact ⟨by trivial, by trivial, hs'⟩
      | sload mn names =>
        cases fr with
        | some loc => exact ⟨by trivial, by trivial, h⟩
        | none =>
          have hcache : s₂.loadCache = s₁.loadCache := h.2.1.symm
          have hglob : s₂.globals = s₁.globals := h.1.symm
          cases hc : lookupStr s₁.loadCache mn with
          | some fm =>
            have hc2 : lookupStr s₂.loadCache mn = some fm := by rw [hcache]; exact hc
            rcases hl : loadNames fm mn names s₁.globals with ⟨rl, gl⟩
            have hl2 : loadNames fm mn names s₂.globals = (rl, gl) := by rw [hglob]; exact hl
            cases rl <;> simp only [execStmt, hc, hc2, hl, hl2] <;>
              exact ⟨by trivial, by trivial, by trivial, h.2.1, h.2.2⟩
          | none =>
            have hc2 : lookupStr s₂.loadCache mn = none := by rw [hcache]; exact hc
            cases hld : ctx.loader with
            | none => simp only [execStmt, hc, hc2, hld]; exact ⟨by trivial, by trivial, h⟩
            | some L =>
              cases hLm : L mn with
              | none =>
                simp only [execStmt, hc, hc2, hld, hLm]
                exact ⟨by trivial, by trivial, h.1, h.2.1, by rw [h.2.2]⟩
              | some fm =>
                rcases hl : loadNames fm mn names s₁.globals with ⟨rl, gl⟩
                have hl2 : loadNames fm mn names s₂.globals = (rl, gl) := by rw [hglob]; exact hl
                cases rl <;> simp only [execStmt, hc, hc2, hld, hLm, hl, hl2] <;>
                  exact ⟨by trivial, by trivial, by trivial, by rw [h.2.1], by rw [h.2.2]⟩
      | sreturn e =>
        cases e with
        | none => exact ⟨by trivial, by trivial, h⟩
        | some e =>
          obtain ⟨hr, hs⟩ := ihE fr e s₁ s₂ h
          rcases h1 : evalExpr f ctx fr e s₁ with ⟨r1, t1⟩
          rcases h2 : evalExpr f ctx fr e s₂ with ⟨r2, t2⟩
          rw [h1, h2] at hr hs
          have hr' : r1 = r2 := hr
          have hs' : stEq t1 t2 := hs
          subst hr'
          cases r1 <;> simp only [execStmt, h1, h2] <;> exact ⟨by trivial, by trivial, hs'⟩
      | spass => exact ⟨by trivial, by trivial, h⟩
    · -- execSeq
      intro fr ts s₁ s₂ h
      cases ts with
      | nil => exact ⟨by trivial, by trivial, h⟩
      | cons t rest =>
        obtain ⟨hrs, hfr, hst⟩ := ihSt fr t s₁ s₂ h
        rcases h1 : execStmt f ctx fr t s₁ with ⟨r1, fr1, t1⟩
        rcases h2 : execStmt f ctx fr t s₂ with ⟨r2, fr2, t2⟩
        rw [h1, h2] at hrs hfr hst
        have hrs' : r1 = r2 := hrs
        have hfr' : fr1 = fr2 := hfr
        have hst' : stEq t1 t2 := hst
        subst hrs'
        subst hfr'
        cases r1 with
        | error er => simp only [execSeq, h1, h2]; exact ⟨by trivial, by trivial, hst'⟩
        | ok u =>
          cases u with
          | retv rv => simp only [execSeq, h1, h2]; exact ⟨by trivial, by trivial, hst'⟩
          | next =>
            obtain ⟨hq1, hq2, hq3⟩ := ihSq fr1 rest t1 t2 hst'
            simp only [execSeq, h1, h2]
            exact ⟨hq1, hq2, hq3⟩
          | exprv v =>
            obtain ⟨hq1, hq2, hq3⟩ := ihSq fr1 rest t1 t2 hst'
            simp only [execSeq, h1, h2]
            exact ⟨hq1, hq2, hq3⟩

theorem execTop_ni (ctx : Ctx) (hpure : PureCtx ctx) (f : Nat) :
    ∀ (ts : List Stmt) (s₁ s₂ : EvalState), stEq s₁ s₂ →
      (execTop f ctx ts s₁).1 = (execTop f ctx ts s₂).1 ∧
      stEq (execTop f ctx ts s₁).2 (execTop f ctx ts s₂).2 := by
  intro ts
  induction ts with
  | nil =>
    intro s₁ s₂ h
    exact ⟨by trivial, h⟩
  | cons t ts ih =>
    intro s₁ s₂ h
    obtain ⟨hrs, hfr, hst⟩ := (ni_all ctx hpure f).2.2.2.2.2.1 none t s₁ s₂ h
    rcases h1 : execStmt f ctx none t s₁ with ⟨r1, fr1, t1⟩
    rcases h2 : execStmt f ctx none t s₂ with ⟨r2, fr2, t2⟩
    rw [h1, h2] at hrs hst
    have hrs' : r1 = r2 := hrs
    have hst' : stEq t1 t2 := hst
    subst hrs'
    cases ts with
    | nil =>
      cases r1 with
      | error er => simp only [execTop, h1, h2]; exact ⟨by trivial, hst'⟩
      | ok u => cases u <;> simp only [execTop, h1, h2] <;> exact ⟨by trivial, hst'⟩
    | cons t' ts' =>
      cases r1 with
      | error er => simp only [execTop, h1, h2]; exact ⟨by trivial, hst'⟩
      | ok u => cases u <;> simp only [execTop, h1, h2] <;> exact ih t1 t2 hst'

/-! ### The Loader is consulted at most once per name -/

theorem resolveInv_congr {s s' : EvalState} (ht : s'.trace = s.trace)
    (hc : s'.loadCache = s.loadCache) (h : resolveInv s) : resolveInv s' := by
  intro m
  rw [ht, hc]
  exact h m

theorem execStmt_none_resolve (f : Nat) (ctx : Ctx) (t : Stmt) (s : EvalState)
    (hInv : resolveInv s) :
    (∀ m, countResolve m ((execStmt f ctx none t s).2.2.trace) ≤ 1) ∧
    (∀ r fr' s', execStmt f ctx none t s = (.ok r, fr', s') → resolveInv s') := by
  cases f with
  | zero =>
    refine ⟨fun m => resolveInv_le_one hInv m, fun r fr' s' h => ?_⟩
    simp [execStmt] at h
  | succ f =>
    cases t with
    | sexpr e =>
      have hp := (pres_all ctx f).1 none e s
      rcases he : evalExpr f ctx none e s with ⟨r1, s1⟩
      rw [he] at hp
      have hI1 : resolveInv s1 := resolveInv_of_preservesCore hp hInv
      cases r1 with
      | error er =>
        refine ⟨fun m => ?_, fun r fr' s' h => ?_⟩
        · simpa only [execStmt, he] using resolveInv_le_one hI1 m
        · simp [execStmt, he] at h
      | ok v =>
        refine ⟨fun m => ?_, fun r fr' s' h => ?_⟩
        · simpa only [execStmt, he] using resolveInv_le_one hI1 m
        · simp only [execStmt, he] at h
          obtain ⟨-, -, rfl⟩ := h
          exact hI1
    | sassign x e =>
      have hp := (pres_all ctx f).1 none e s
      rcases he : evalExpr f ctx none e s with ⟨r1, s1⟩
      rw [he] at hp
      have hI1 : resolveInv s1 := resolveInv_of_preservesCore hp hInv
      cases r1 with
      | error er =>
        refine ⟨fun m => ?_, fun r fr' s' h => ?_⟩
        · simpa only [execStmt, he] using resolveInv_le_one hI1 m
        · simp [execStmt, he] at h
      | ok v =>
        have hI2 : resolveInv { s1 with globals := setStr s1.globals x v } :=
          resolveInv_congr rfl rfl hI1
        refine ⟨fun m => ?_, fun r fr' s' h => ?_⟩
        · simpa only [execStmt, he] using resolveInv_le_one hI2 m
        · simp only [execStmt, he] at h
          obtain ⟨-, -, rfl⟩ := h
          exact hI2
    | sdefn name ps body =>
      have hp := (pres_all ctx f).2.2.2.2.1 none name ps s
      rcases he : evalParams f ctx none name ps s with ⟨r1, s1⟩
      rw [he] at hp
      have hI1 : resolveInv s1 := resolveInv_of_preservesCore hp hInv
      cases r1 with
      | error er =>
        refine ⟨fun m => ?_, fun r fr' s' h => ?_⟩
        · simpa only [execStmt, he] using resolveInv_le_one hI1 m
        · simp [execStmt, he] at h
      | ok params =>
        have hI2 : resolveInv
            { s1 with globals := setStr s1.globals name (.vfunc name params body) } :=
          resolveInv_congr rfl rfl hI1
        refine ⟨fun m => ?_, fun r fr' s' h => ?_⟩
        · simpa only [execStmt, he] using resolveInv_le_one hI2 m
        · simp only [execStmt, he] at h
          obtain ⟨-, -, rfl⟩ := h
          exact hI2
    | sload mn names =>
      cases hc : lookupStr s.loadCache mn with
      | some fm =>
        rcases hl : loadNames fm mn names s.globals with ⟨rl, gl⟩
        have hI2 : resolveInv { s with globals := gl } := resolveInv_congr rfl rfl hInv
        cases rl with
        | error er =>
          refine ⟨fun m => ?_, fun r fr' s' h => ?_⟩
          · simpa only [execStmt, hc, hl] using resolveInv_le_one hI2 m
          · simp [execStmt, hc, hl] at h
        | ok u =>
          refine ⟨fun m => ?_, fun r fr' s' h => ?_⟩
          · simpa only [execStmt, hc, hl] using resolveInv_le_one hI2 m
          · simp only [execStmt, hc, hl] at h
            obtain ⟨-, -, rfl⟩ := h
            exact hI2
      | none =>
        cases hld : ctx.loader with
        | none =>
          refine ⟨fun m => ?_, fun r fr' s' h => ?_⟩
          · simpa only [execStmt, hc, hld] using resolveInv_le_one hInv m
          · simp [execStmt, hc, hld] at h
        | some L =>
          have hcount : ∀ m, countResolve m (s.trace ++ [Event.resolve mn]) =
              countResolve m s.trace + (if mn = m then 1 else 0) := by
            intro m
            simp [countResolve_append, countResolve]
          have hbound : ∀ m, countResolve m (s.trace ++ [Event.resolve mn]) ≤ 1 := by
            intro m
            rw [hcount m]
            by_cases hm : mn = m
            · subst hm
              rw [hInv mn, hc]
              simp
            · have := resolveInv_le_one hInv m
              simp [hm]
              omega
          cases hLm : L mn with
          | none =>
            refine ⟨fun m => ?_, fun r fr' s' h => ?_⟩
            · simpa only [execStmt, hc, hld, hLm] using hbound m
            · simp [execStmt, hc, hld, hLm] at h
          | some fm =>
            have hI2 : resolveInv
                ⟨s.globals, s.loadCache ++ [(mn, fm)], s.trace ++ [Event.resolve mn], s.extra⟩ := by
              intro m
              show countResolve m (s.trace ++ [Event.resolve mn]) =
                (if (lookupStr (s.loadCache ++ [(mn, fm)]) m).isSome then 1 else 0)
              rw [hcount m, lookupStr_append]
              by_cases hm : mn = m
              · subst hm
                have h0 : countResolve mn s.trace = 0 := by
                  rw [hInv mn, hc]
                  rfl
                rw [h0, hc]
                simp [lookupStr]
              · cases hcm : lookupStr s.loadCache m with
                | none =>
                  have h0 : countResolve m s.trace = 0 := by
                    rw [hInv m, hcm]
                    rfl
                  rw [h0]
                  simp [lookupStr, hm]
                | some fm' =>
                  have h1 : countResolve m s.trace = 1 := by
                    rw [hInv m, hcm]
                    rfl
                  rw [h1]
                  simp [hm]
            rcases hl : loadNames fm mn names s.globals with ⟨rl, gl⟩
            have hI3 : resolveInv
                ⟨gl, s.loadCache ++ [(mn, fm)], s.trace ++ [Event.resolve mn], s.extra⟩ :=
              resolveInv_congr rfl rfl hI2
            cases rl with
            | error er =>
              refine ⟨fun m => ?_, fun r fr' s' h => ?_⟩
              · simpa only [execStmt, hc, hld, hLm, hl] using resolveInv_le_one hI3 m
              · simp [execStmt, hc, hld, hLm, hl] at h
            | ok u =>
              refine ⟨fun m => ?_, fun r fr' s' h => ?_⟩
              · simpa only [execStmt, hc, hld, hLm, hl] using resolveInv_le_one hI3 m
              · simp only [execStmt, hc, hld, hLm, hl] at h
                obtain ⟨-, -, rfl⟩ := h
                exact hI3
    | sreturn e =>
      cases e with
      | none =>
        refine ⟨fun m => resolveInv_le_one hInv m, fun r fr' s' h => ?_⟩
        simp only [execStmt] at h
        obtain ⟨-, -, rfl⟩ := h
        exact hInv
      | some e =>
        have hp := (pres_all ctx f).1 none e s
        rcases he : evalExpr f ctx none e s with ⟨r1, s1⟩
        rw [he] at hp
        have hI1 : resolveInv s1 := resolveInv_of_preservesCore hp hInv
        cases r1 with
        | error er =>
          refine ⟨fun m => ?_, fun r fr' s' h => ?_⟩
          · simpa only [execStmt, he] using resolveInv_le_one hI1 m
          · simp [execStmt, he] at h
        | ok v =>
          refine ⟨fun m => ?_, fun r fr' s' h => ?_⟩
          · simpa only [execStmt, he] using resolveInv_le_one hI1 m
          · simp only [execStmt, he] at h
            obtain ⟨-, -, rfl⟩ := h
            exact hI1
    | spass =>
      refine ⟨fun m => resolveInv_le_one hInv m, fun r fr' s' h => ?_⟩
      simp only [execStmt] at h
      obtain ⟨-, -, rfl⟩ := h
      exact hInv

theorem execTop_resolve (f : Nat) (ctx : Ctx) : ∀ (ts : List Stmt) (s : EvalState),
    resolveInv s → ∀ m, countResolve m ((execTop f ctx ts s).2.trace) ≤ 1 := by
  intro ts
  induction ts with
  | nil =>
    intro s h m
    simpa [execTop] using resolveInv_le_one h m
  | cons t ts ih =>
    intro s h m
    have hstep := execStmt_none_resolve f ctx t s h
    rcases hst : execStmt f ctx none t s with ⟨r, fr', s'⟩
    rw [hst] at hstep
    cases ts with
    | nil =>
      cases r with
      | error er => simpa only [execTop, hst] using hstep.1 m
      | ok u => cases u <;> simpa only [execTop, hst] using hstep.1 m
    | cons t' ts' =>
      cases r with
      | error er => simpa only [execTop, hst] using hstep.1 m
      | ok u =>
        have hInv' : resolveInv s' := hstep.2 u fr' s' rfl
        cases u <;> simpa only [execTop, hst] using ih s' hInv' m

/-! ### Failed evaluations keep earlier global mutations -/

theorem loadNames_mono (fm : FrozenModule) (m : String) :
    ∀ (names : List String) (gl : List (String × Value)) (n : String),
      (lookupStr gl n).isSome → (lookupStr (loadNames fm m names gl).2 n).isSome := by
  intro names
  induction names with
  | nil => intro gl n h; exact h
  | cons nm rest ih =>
    intro gl n h
    cases hg : fm.get nm with
    | none => simpa only [loadNames, hg] using h
    | some v =>
      simp only [loadNames, hg]
      exact ih _ n (lookupStr_setStr_isSome gl nm v n h)

theorem execStmt_none_mono (f : Nat) (ctx : Ctx) (t : Stmt) (s : EvalState) :
    ∀ n, (lookupStr s.globals n).isSome →
      (lookupStr ((execStmt f ctx none t s).2.2.globals) n).isSome := by
  intro n hn
  cases f with
  | zero => exact hn
  | succ f =>
    cases t with
    | sexpr e =>
      have hp := (pres_all ctx f).1 none e s
      rcases he : evalExpr f ctx none e s with ⟨r1, s1⟩
      rw [he] at hp
      cases r1 <;> simp only [execStmt, he] <;> rw [hp.1] <;> exact hn
    | sassign x e =>
      have hp := (pres_all ctx f).1 none e s
      rcases he : evalExpr f ctx none e s with ⟨r1, s1⟩
      rw [he] at hp
      cases r1 with
      | error er =>
        simp only [execStmt, he]
        rw [hp.1]
        exact hn
      | ok v =>
        simp only [execStmt, he]
        refine lookupStr_setStr_isSome s1.globals x v n ?_
        rw [hp.1]
        exact hn
    | sdefn name ps body =>
      have hp := (pres_all ctx f).2.2.2.2.1 none name ps s
      rcases he : evalParams f ctx none name ps s with ⟨r1, s1⟩
      rw [he] at hp
      cases r1 with
      | error er =>
        simp only [execStmt, he]
        rw [hp.1]
        exact hn
      | ok params =>
        simp only [execStmt, he]
        refine lookupStr_setStr_isSome s1.globals name _ n ?_
        rw [hp.1]
        exact hn
    | sload mn names =>
      cases hc : lookupStr s.loadCache mn with
      | some fm =>
        have hl := loadNames_mono fm mn names s.globals n hn
        rcases hln : loadNames fm mn names s.globals with ⟨rl, gl⟩
        rw [hln] at hl
        cases rl <;> simpa only [execStmt, hc, hln] using hl
      | none =>
        cases hld : ctx.loader with
        | none => simpa only [execStmt, hc, hld] using hn
        | some L =>
          cases hLm : L mn with
          | none => simpa only [execStmt, hc, hld, hLm] using hn
          | some fm =>
            have hl := loadNames_mono fm mn names s.globals n hn
            rcases hln : loadNames fm mn names s.globals with ⟨rl, gl⟩
            rw [hln] at hl
            cases rl <;> simpa only [execStmt, hc, hld, hLm, hln] using hl
    | sreturn e =>
      cases e with
      | none => exact hn
      | some e =>
        have hp := (pres_all ctx f).1 none e s
        rcases he : evalExpr f ctx none e s with ⟨r1, s1⟩
        rw [he] at hp
        cases r1 <;> simp only [execStmt, he] <;> rw [hp.1] <;> exact hn
    | spass => exact hn

/-! ### Decomposition of the top-level statement walk -/

theorem execTop_cons (f : Nat) (ctx : Ctx) (t : Stmt) (ts : List Stmt) (s : EvalState)
    (h : ts ≠ []) :
    execTop f ctx (t :: ts) s =
      match execStmt f ctx none t s with
      | (.error er, _, s') => (.error er, s')
      | (.ok _, _, s') => execTop f ctx ts s' := by
  cases ts with
  | nil => exact absurd rfl h
  | cons t' ts' => rfl

theorem execTop_append (f : Nat) (ctx : Ctx) (ts ts' : List Stmt) (s s₁ : EvalState)
    (hne : ts' ≠ []) (h : runStmts f ctx ts s = (.ok (), s₁)) :
    execTop f ctx (ts ++ ts') s = execTop f ctx ts' s₁ := by
  induction ts generalizing s with
  | nil =>
    simp [runStmts] at h
    rw [List.nil_append, h]
  | cons t ts ih =>
    rw [List.cons_append, execTop_cons f ctx t (ts ++ ts') s
      (fun hc => hne (List.append_eq_nil.mp hc).2)]
    rcases hst : execStmt f ctx none t s with ⟨r, fr', s'⟩
    simp only [runStmts, hst] at h
    cases r with
    | error er => simp at h
    | ok u => exact ih s' h

theorem execStmt_ok_exprv {f : Nat} {ctx : Ctx} {fr : Frame} {t : Stmt} {s : EvalState}
    {v : Value} {fr' : Frame} {s' : EvalState}
    (h : execStmt f ctx fr t s = (.ok (.exprv v), fr', s')) : ∃ e, t = .sexpr e := by
  cases f with
  | zero => simp [execStmt] at h
  | succ f =>
    cases t with
    | sexpr e => exact ⟨e, rfl⟩
    | sassign x e =>
      simp only [execStmt] at h
      split at h <;> (try split at h) <;> simp_all
    | sdefn n ps b =>
      simp only [execStmt] at h
      split at h <;> (try split at h) <;> simp_all
    | sload m names =>
      simp only [execStmt] at h
      split at h <;> (try split at h) <;> (try split at h) <;> (try split at h) <;>
        (try split at h) <;> simp_all
    | sreturn e =>
      cases e with
      | none => simp [execStmt] at h
      | some e =>
        simp only [execStmt] at h
        split at h <;> simp_all
    | spass => simp [execStmt] at h

/-! ### Claim theorems -/

/-- Claim C2: freezing is idempotent — for every value `x` (freezing always
succeeds on the representable, acyclic value graphs of the model),
`freeze (freeze x)` is identical to `freeze x`: applying the freeze pass to an
already-frozen value returns it unchanged. -/
theorem claim_C2_freeze_idempotent : ∀ v : Value, freezeV (freezeV v) = freezeV v :=
  freezeV_idem

/-- Claim C3: for a user-defined function with parameter list
`(a, b=2, *c, **d)`, the argument-binding protocol applied to the call
`f(1, 3, 4, x=5)` binds `a=1, b=3, c=(4,), d={"x": 5}` — positionals fill the
positional-or-keyword parameters left-to-right, the overflow positional `4`
goes to `*c`, and the overflow keyword `x=5` goes to `**d`. -/
theorem claim_C3_binding_example :
    bindArgs false
      [Param.mk "a" .normal none none, Param.mk "b" .normal (some (.vint 2)) none,
       Param.mk "c" .args none none, Param.mk "d" .kwargs none none]
      [.vint 1, .vint 3, .vint 4] [("x", .vint 5)] =
    .ok [("a", .vint 1), ("b", .vint 3), ("c", .vtuple [.vint 4]),
         ("d", .vdict false [(.vstr "x", .vint 5)])] := rfl

/-- Claim C4: with type annotations enabled, calling a function whose
parameter carries annotation `"int"` with any string argument fails — right
after binding — with a TypeError whose message contains the literal argument
value, its actual type name `string`, and the expected annotation `int`
(the exact message asserted by the doc example of
`src/starlark/src/lib.rs`). -/
theorem claim_C4_annotation_mismatch : ∀ s : String,
    bindArgs true [Param.mk "x" .normal none (some "int")] [.vstr s] [] =
      .error (.typeError (typeErrorMsg (.vstr s) "int")) ∧
    (∃ a b, typeErrorMsg (.vstr s) "int" = a ++ (s ++ b)) ∧
    (∃ a b, typeErrorMsg (.vstr s) "int" = a ++ ("string" ++ b)) ∧
    (∃ a b, typeErrorMsg (.vstr s) "int" = a ++ ("int" ++ b)) := by
  intro s
  refine ⟨rfl, ⟨"Value `", "` of type `string` does not match the type annotation `int`", ?_⟩,
    ⟨"Value `" ++ (s ++ "` of type `"), "` does not match the type annotation `int`", ?_⟩,
    ⟨"Value `" ++ (s ++ ("` of type `" ++ ("string" ++ "` does not match the type annotation `"))), "`", ?_⟩⟩
  · simp [typeErrorMsg, Value.display, Value.typeName, String.append_assoc]
  · simp [typeErrorMsg, Value.display, Value.typeName, String.append_assoc]
  · simp [typeErrorMsg, Value.display, Value.typeName, String.append_assoc]

/-- Claim C1: determinism — for every AST and every Globals registry whose
native functions have no side effects, two runs of `eval_module` against
fresh empty Modules produce identical results, even when the host-side
"extra" context differs between the runs (in particular, when the second run
starts from whatever host state the first run left behind): the returned
value, the resulting Module global bindings, and even the whole observable
event trace are identical. -/
theorem claim_C1_determinism : ∀ (f : Nat) (ctx : Ctx) (ast : List Stmt) (h₁ h₂ : Nat),
    PureCtx ctx →
    (evalModule f ctx ast h₁).1 = (evalModule f ctx ast h₂).1 ∧
    (evalModule f ctx ast h₁).2.globals = (evalModule f ctx ast h₂).2.globals ∧
    (evalModule f ctx ast h₁).2.trace = (evalModule f ctx ast h₂).2.trace := by
  intro f ctx ast h₁ h₂ hpure
  have h := execTop_ni ctx hpure f ast (freshState h₁) (freshState h₂) ⟨rfl, rfl, rfl⟩
  exact ⟨h.1, h.2.1, h.2.2.2⟩

/-- Witness for claim C1 at a concrete input: the empty Globals registry is
trivially free of side-effecting natives, and a small module evaluates to the
same value and bindings from two different initial host states. -/
theorem claim_C1_witness :
    PureCtx ctxPlain ∧
    ((evalModule 20 ctxPlain [.sassign "x" (.eint 1), .sexpr (.ename "x")] 0).1 =
      (evalModule 20 ctxPlain [.sassign "x" (.eint 1), .sexpr (.ename "x")] 5).1 ∧
    (evalModule 20 ctxPlain [.sassign "x" (.eint 1), .sexpr (.ename "x")] 0).2.globals =
      (evalModule 20 ctxPlain [.sassign "x" (.eint 1), .sexpr (.ename "x")] 5).2.globals ∧
    (evalModule 20 ctxPlain [.sassign "x" (.eint 1), .sexpr (.ename "x")] 0).2.trace =
      (evalModule 20 ctxPlain [.sassign "x" (.eint 1), .sexpr (.ename "x")] 5).2.trace) := by
  have hp : PureCtx ctxPlain := by
    intro p hp
    simp [ctxPlain] at hp
  exact ⟨hp, claim_C1_determinism 20 ctxPlain [.sassign "x" (.eint 1), .sexpr (.ename "x")]
    0 5 hp⟩

/-- Claim C5: for every module whose top-level statements all succeed,
`eval_module` executes them sequentially in the single module frame (whose
locals are the Module's globals) and returns the value of a trailing bare
expression statement — and `None` when the module is empty or does not end in
an expression statement. -/
theorem claim_C5_trailing_expression :
    (∀ (f : Nat) (ctx : Ctx) (s : EvalState), execTop f ctx [] s = (.ok .vnone, s)) ∧
    (∀ (f : Nat) (ctx : Ctx) (ts : List Stmt) (e : Expr) (s s₁ : EvalState) (v : Value)
      (fr' : Frame) (s₂ : EvalState),
      runStmts f ctx ts s = (.ok (), s₁) →
      execStmt f ctx none (.sexpr e) s₁ = (.ok (.exprv v), fr', s₂) →
      execTop f ctx (ts ++ [.sexpr e]) s = (.ok v, s₂)) ∧
    (∀ (f : Nat) (ctx : Ctx) (ts : List Stmt) (t : Stmt) (s s₁ : EvalState) (r : StmtRes)
      (fr' : Frame) (s₂ : EvalState),
      (∀ e, t ≠ .sexpr e) →
      runStmts f ctx ts s = (.ok (), s₁) →
      execStmt f ctx none t s₁ = (.ok r, fr', s₂) →
      execTop f ctx (ts ++ [t]) s = (.ok .vnone, s₂)) := by
  refine ⟨fun f ctx s => rfl, ?_, ?_⟩
  · intro f ctx ts e s s₁ v fr' s₂ hpre hlast
    rw [execTop_append f ctx ts [.sexpr e] s s₁ (by simp) hpre]
    simp [execTop, hlast]
  · intro f ctx ts t s s₁ r fr' s₂ hnexpr hpre hlast
    rw [execTop_append f ctx ts [t] s s₁ (by simp) hpre]
    cases r with
    | exprv v => exact absurd (execStmt_ok_exprv hlast).choose_spec (hnexpr _)
    | next => simp [execTop, hlast]
    | retv v => simp [execTop, hlast]

/-- Witness for claim C5 at concrete inputs: the empty module returns `None`;
`x = 1` followed by the trailing expression `x` returns `1`; `x = 1` followed
by `pass` returns `None`. -/
theorem claim_C5_witness :
    execTop 20 ctxPlain [] (freshState 0) = (.ok .vnone, freshState 0) ∧
    execTop 20 ctxPlain [.sassign "x" (.eint 1), .sexpr (.ename "x")] (freshState 0) =
      (.ok (.vint 1), ⟨[("x", .vint 1)], [], [], 0⟩) ∧
    execTop 20 ctxPlain [.sassign "x" (.eint 1), .spass] (freshState 0) =
      (.ok .vnone, ⟨[("x", .vint 1)], [], [], 0⟩) :=
  ⟨claim_C5_trailing_expression.1 20 ctxPlain (freshState 0),
   claim_C5_trailing_expression.2.1 20 ctxPlain [.sassign "x" (.eint 1)] (.ename "x")
     (freshState 0) ⟨[("x", .vint 1)], [], [], 0⟩ (.vint 1) none
     ⟨[("x", .vint 1)], [], [], 0⟩ rfl rfl,
   claim_C5_trailing_expression.2.2 20 ctxPlain [.sassign "x" (.eint 1)] .spass
     (freshState 0) ⟨[("x", .vint 1)], [], [], 0⟩ .next none
     ⟨[("x", .vint 1)], [], [], 0⟩ (fun _ h => Stmt.noConfusion h) rfl rfl⟩

/-- Claim C6: within a single evaluation the Evaluator invokes the Loader at
most once per distinct load-target name, caching the result — for every
module, loader and name the final trace holds at most one resolution event
for that name; and the concrete module with two `load()` statements naming
the same dependency triggers exactly one Loader resolution call. -/
theorem claim_C6_loader_called_once :
    (∀ (f : Nat) (ctx : Ctx) (ast : List Stmt) (h : Nat) (m : String),
      countResolve m ((evalModule f ctx ast h).2.trace) ≤ 1) ∧
    (evalModule 20 ctxLoad [.sload "a.star" ["x"], .sload "a.star" ["y"]] 0).2.trace =
      [.resolve "a.star"] := by
  refine ⟨fun f ctx ast h m => ?_, rfl⟩
  exact execTop_resolve f ctx ast (freshState h) (fun _ => rfl) m

/-- Claim C9: when `eval_module` fails partway through, the error is the one
produced by the failing statement, the Module state handed back is exactly
the state at the failure point (no rollback, no atomicity), and every global
binding established by the statements before the failing one is still
present in it. -/
theorem claim_C9_no_rollback : ∀ (f : Nat) (ctx : Ctx) (ts : List Stmt) (t : Stmt)
    (rest : List Stmt) (s s₁ : EvalState) (err : EvalErr) (fr' : Frame) (s₂ : EvalState),
    runStmts f ctx ts s = (.ok (), s₁) →
    execStmt f ctx none t s₁ = (.error err, fr', s₂) →
    execTop f ctx (ts ++ t :: rest) s = (.error err, s₂) ∧
    (∀ n, (lookupStr s₁.globals n).isSome → (lookupStr s₂.globals n).isSome) := by
  intro f ctx ts t rest s s₁ err fr' s₂ hpre hfail
  constructor
  · rw [execTop_append f ctx ts (t :: rest) s s₁ (by simp) hpre]
    cases rest with
    | nil => simp [execTop, hfail]
    | cons r rs =>
      rw [execTop_cons f ctx t (r :: rs) s₁ (by simp), hfail]
  · intro n hn
    have hm := execStmt_none_mono f ctx t s₁ n hn
    rw [hfail] at hm
    exact hm

/-- Witness for claim C9 at a concrete input: after `x = 1` the next
statement fails with a NameError, `eval_module` reports that error, and the
binding `x = 1` is still visible in the returned Module state. -/
theorem claim_C9_witness :
    execTop 20 ctxPlain [.sassign "x" (.eint 1), .sexpr (.ename "zzz")] (freshState 0) =
      (.error (.nameError "zzz"), ⟨[("x", .vint 1)], [], [], 0⟩) ∧
    (lookupStr (EvalState.mk [("x", .vint 1)] [] [] 0).globals "x").isSome :=
  ⟨(claim_C9_no_rollback 20 ctxPlain [.sassign "x" (.eint 1)] (.sexpr (.ename "zzz")) []
      (freshState 0) ⟨[("x", .vint 1)], [], [], 0⟩ (.nameError "zzz") none
      ⟨[("x", .vint 1)], [], [], 0⟩ rfl rfl).1,
   (claim_C9_no_rollback 20 ctxPlain [.sassign "x" (.eint 1)] (.sexpr (.ename "zzz")) []
      (freshState 0) ⟨[("x", .vint 1)], [], [], 0⟩ (.nameError "zzz") none
      ⟨[("x", .vint 1)], [], [], 0⟩ rfl rfl).2 "x" rfl⟩

theorem c7_calls_loop : ∀ k : Nat,
    execTop 20 ctxCounter (List.replicate (k + 1) callF) stateAfterDefC7 =
      (.ok (.vint 0), stateAfterDefC7) := by
  intro k
  induction k with
  | zero => rfl
  | succ k ih =>
    show execTop 20 ctxCounter (callF :: List.replicate (k + 1) callF) stateAfterDefC7 = _
    rw [execTop_cons 20 ctxCounter callF (List.replicate (k + 1) callF) stateAfterDefC7
      (by simp)]
    have hcall : execStmt 20 ctxCounter none callF stateAfterDefC7 =
        (.ok (.exprv (.vint 0)), none, stateAfterDefC7) := rfl
    rw [hcall]
    exact ih

/-- Claim C7: for a user-defined function, each parameter default expression
is evaluated exactly once, at definition time, and never re-evaluated by
calls — running `def f(x=counter()): return x` followed by any number of
calls `f()` against the stateful `counter()` native leaves exactly one
default-evaluation trace event, bumps the host counter exactly once, returns
the identical pre-evaluated default `0` from every call, and each single call
leaves the whole evaluation state untouched. -/
theorem claim_C7_defaults_once : ∀ k : Nat,
    evalModule 20 ctxCounter (defCounterF :: List.replicate (k + 1) callF) 0 =
      (.ok (.vint 0), stateAfterDefC7) ∧
    execStmt 20 ctxCounter none callF stateAfterDefC7 =
      (.ok (.exprv (.vint 0)), none, stateAfterDefC7) ∧
    stateAfterDefC7.extra = 1 ∧
    stateAfterDefC7.trace = [.defaultEval "f" "x"] := by
  intro k
  refine ⟨?_, rfl, rfl, rfl⟩
  show execTop 20 ctxCounter (defCounterF :: List.replicate (k + 1) callF) (freshState 0) = _
  rw [execTop_cons 20 ctxCounter defCounterF (List.replicate (k + 1) callF) (freshState 0)
    (by simp)]
  have hdef : execStmt 20 ctxCounter none defCounterF (freshState 0) =
      (.ok .next, none, stateAfterDefC7) := rfl
  rw [hdef]
  exact c7_calls_loop k

/-- Claim C8: for every unfrozen Dict entry list, hashable key `k` and value
`v` — the assignment `d[k] = v` succeeds and afterwards `d[k]` reads back `v`;
and the iteration (key) order of the updated Dict equals first-insertion
order: re-assigning an existing key keeps every key position unchanged, while
a genuinely new key is appended at the end. -/
theorem claim_C8_dict_insertion_order : ∀ (es : List (Value × Value)) (k v : Value),
    isHashable k = true →
    Value.setIndex (.vdict false es) k v = .ok (.vdict false (dictSet es k v)) ∧
    Value.getIndex (.vdict false (dictSet es k v)) k = .ok v ∧
    (dictSet es k v).map Prod.fst =
      (if dictHasKey es k then es.map Prod.fst else es.map Prod.fst ++ [k]) := by
  intro es k v hk
  refine ⟨by simp [Value.setIndex, hk], ?_, dictSet_keys es k v⟩
  simp [Value.getIndex, dictLookup_dictSet es k v (valEq_refl_of_hashable k hk)]

/-- Witness for claim C8 at a concrete input: re-assigning the existing key
`"a"` in `{"a": 1, "b": 2}` updates the value in place and keeps the key
order `["a", "b"]`. -/
theorem claim_C8_witness :
    isHashable (Value.vstr "a") = true ∧
    (Value.setIndex (.vdict false [(.vstr "a", .vint 1), (.vstr "b", .vint 2)]) (.vstr "a") (.vint 9) =
      .ok (.vdict false (dictSet [(.vstr "a", .vint 1), (.vstr "b", .vint 2)] (.vstr "a") (.vint 9))) ∧
    Value.getIndex (.vdict false (dictSet [(.vstr "a", .vint 1), (.vstr "b", .vint 2)] (.vstr "a") (.vint 9))) (.vstr "a") =
      .ok (.vint 9) ∧
    (dictSet [(.vstr "a", .vint 1), (.vstr "b", .vint 2)] (.vstr "a") (.vint 9)).map Prod.fst =
      (if dictHasKey [(.vstr "a", .vint 1), (.vstr "b", .vint 2)] (.vstr "a") then
        [(Value.vstr "a", Value.vint 1), (.vstr "b", .vint 2)].map Prod.fst
      else [(Value.vstr "a", Value.vint 1), (.vstr "b", .vint 2)].map Prod.fst ++ [.vstr "a"])) :=
  ⟨rfl, claim_C8_dict_insertion_order [(.vstr "a", .vint 1), (.vstr "b", .vint 2)] (.vstr "a") (.vint 9) rfl⟩

/-- Claim C10: the public value accessors are total and Option-typed —
`unpack_str` returns `some s` exactly when the value is the String `s` and
`none` for every other kind; `unpack_int` returns `some n` exactly when the
value is an Int representable in the host integer type; and `FrozenModule.get`
on a name bound in the module returns that name's frozen value rather than
failing. -/
theorem claim_C10_accessors :
    (∀ (v : Value) (s : String), v.unpack_str = some s ↔ v = .vstr s) ∧
    (∀ (v : Value) (n : Int), v.unpack_int = some n ↔
      v = .vint n ∧ hostIntMin ≤ n ∧ n < hostIntMax) ∧
    (∀ (m : Module) (n : String) (v : Value), lookupStr m.bindings n = some v →
      (Module.freeze m).get n = some (freezeV v)) := by
  refine ⟨?_, ?_, ?_⟩
  · intro v s
    cases v <;> simp [Value.unpack_str]
  · intro v n
    cases v
    case vint m =>
      show (if hostIntMin ≤ m ∧ m < hostIntMax then some m else none) = some n ↔ _
      by_cases h : hostIntMin ≤ m ∧ m < hostIntMax
      · rw [if_pos h]
        constructor
        · intro hs
          injection hs with hmn
          subst hmn
          exact ⟨rfl, h.1, h.2⟩
        · rintro ⟨hv, _, _⟩
          injection hv with hmn
          subst hmn
          rfl
      · rw [if_neg h]
        constructor
        · intro hs
          exact absurd hs (by simp)
        · rintro ⟨hv, h1, h2⟩
          injection hv with hmn
          subst hmn
          exact absurd ⟨h1, h2⟩ h
    all_goals simp [Value.unpack_int]
  · intro m n v h
    simp [Module.freeze, FrozenModule.get, lookupStr_freezeBindings, h]

/-- Witness for claim C10 at a concrete input: the unfrozen list bound to
`"a"` comes back frozen from `FrozenModule.get` after `Module.freeze`. -/
theorem claim_C10_witness :
    lookupStr (Module.mk [("a", Value.vlist false [.vint 1])]).bindings "a" =
      some (.vlist false [.vint 1]) ∧
    (Module.freeze ⟨[("a", Value.vlist false [.vint 1])]⟩).get "a" =
      some (freezeV (.vlist false [.vint 1])) :=
  ⟨rfl, claim_C10_accessors.2.2 ⟨[("a", Value.vlist false [.vint 1])]⟩ "a"
    (.vlist false [.vint 1]) rfl⟩

end Starlark
